import Mathlib

/-!
Verification development for the plasmactl-component version-propagation core.

Go strings are modelled as lists of characters (`GoStr`), Go maps and the
repository's insertion-ordered `OrderedMap` as association lists, and
fallible Go functions as `Except`-valued Lean functions.  File-system and
git access is abstracted into explicit environment parameters, so that
every definition is an executable function of its inputs.
-/

deriving instance DecidableEq for Except

namespace Plasmactl

/-- Model of a Go string: a list of characters. -/
abbrev GoStr := List Char

/-- Go `strings.Split(s, "-")`: splits `s` at every dash; always returns at
least one element, the parts never contain a dash. -/
def splitDash : GoStr → List GoStr
  | [] => [[]]
  | c :: rest =>
    if c = '-' then [] :: splitDash rest
    else
      match splitDash rest with
      | [] => [[c]]
      | h :: t => (c :: h) :: t

/-- Base of a version: the substring before the first dash
(`GetBaseVersion` returns `split[0]`, src/unnamed/part_005). -/
def baseOf (s : GoStr) : GoStr := (splitDash s).headD []

/-- Function `composeVersion` from src/actions/sync/sync.go: keep a compound new
version as-is, otherwise graft the new version onto the old base. -/
def composeVersion (oldVersion newVersion : GoStr) : GoStr :=
  if 1 < (splitDash newVersion).length then newVersion
  else
    let split := splitDash oldVersion
    if split.length = 1 then oldVersion ++ '-' :: newVersion
    else if 1 < split.length then split.headD [] ++ '-' :: newVersion
    else newVersion

/-- YAML values as decoded by yaml.v3 into Go `any` values.  A missing key
or an explicit YAML `null` both decode to Go `nil`, modelled as
`Yaml.null`.  Floating-point scalars are out of scope. -/
inductive Yaml where
  | str (s : String)
  | int (n : Int)
  | bool (b : Bool)
  | null
  | seq (xs : List Yaml)
  | map (entries : List (String × Yaml))

/-- Go map lookup in an association list with unique keys. -/
def alookup {α : Type _} : List (String × α) → String → Option α
  | [], _ => none
  | (k2, v) :: rest, k => if k2 = k then some v else alookup rest k

/-- Byte-wise lexicographic comparison of Go strings (names here are
ASCII, so character order equals byte order). -/
def strLtB : List Char → List Char → Bool
  | [], [] => false
  | [], _ :: _ => true
  | _ :: _, [] => false
  | a :: as, b :: bs =>
    if a.toNat < b.toNat then true
    else if b.toNat < a.toNat then false
    else strLtB as bs

def strLeB (a b : String) : Bool := !(strLtB b.data a.data)

/-- Insertion sort of rendered map entries, mirroring how `fmt` prints Go
maps with sorted keys. -/
def insertStr (e : String) : List String → List String
  | [] => [e]
  | e2 :: rest => if strLeB e e2 then e :: e2 :: rest else e2 :: insertStr e rest

def sortStrs : List String → List String
  | [] => []
  | e :: rest => insertStr e (sortStrs rest)

mutual

/-- Go `fmt.Sprint` of a decoded YAML value: strings print as themselves,
other scalars in their default Go rendering, sequences as
`[a b c]` and maps as `map[k1:v1 k2:v2]` with sorted keys. -/
def goSprint : Yaml → String
  | .str s => s
  | .int n => toString n
  | .bool b => cond b "true" "false"
  | .null => "<nil>"
  | .seq xs => "[" ++ String.intercalate " " (goSprintList xs) ++ "]"
  | .map es => "map[" ++ String.intercalate " " (sortStrs (goSprintEntries es)) ++ "]"

def goSprintList : List Yaml → List String
  | [] => []
  | x :: xs => goSprint x :: goSprintList xs

def goSprintEntries : List (String × Yaml) → List String
  | [] => []
  | (k, v) :: es => (k ++ ":" ++ goSprint v) :: goSprintEntries es

end

/-- Function `GetMetaVersion` from src/unnamed/part_005: reads `plasma.version`
from decoded metadata; `nil` (missing or null) becomes the empty string,
strings pass through, anything else is `fmt.Sprint`-rendered. -/
def GetMetaVersion (meta : List (String × Yaml)) : String :=
  match alookup meta "plasma" with
  | some (Yaml.map plasma) =>
    let version := (alookup plasma "version").getD Yaml.null
    let version := match version with
      | Yaml.null => Yaml.str ""
      | v => v
    match version with
    | Yaml.str s => s
    | v => goSprint v
  | _ => ""

/-- Key list of an `OrderedMap[bool]` used as an ordered set: `Set`
appends a new key, an existing key keeps its position. -/
def okSet (l : List String) (k : String) : List String :=
  if k ∈ l then l else l ++ [k]

/-- Go map assignment `m[k] = v`: overwrite in place or append. -/
def amSet {α : Type _} : List (String × α) → String → α → List (String × α)
  | [], k, v => [(k, v)]
  | (k2, v2) :: rest, k, v =>
    if k2 = k then (k2, v) :: rest else (k2, v2) :: amSet rest k v

/-- The members of a dependency map entry (empty when the key is absent). -/
def depGet (m : List (String × List String)) (k : String) : List String :=
  (alookup m k).getD []

/-- Operation `m[key].Set(member, true)` with implicit creation of `m[key]`. -/
def depAdd (m : List (String × List String)) (key member : String) :
    List (String × List String) :=
  amSet m key (okSet (depGet m key) member)

/-- Creation of a missing entry: when `m[key]` is nil a fresh ordered map is assigned to it. -/
def depEnsure (m : List (String × List String)) (key : String) :
    List (String × List String) :=
  match alookup m key with
  | some _ => m
  | none => m ++ [(key, [])]

/-- One `tasks/*.yaml` file of a valid component as seen by the walk in
`buildComponentsGraph` (src/unnamed/part_004): the owning component's
dot-name, whether the file is `dependencies.yaml` (semantic edges, other
task files give build edges), and per task entry the `include_role.name`
string when that entry has one. -/
structure TaskFile where
  component : String
  isSemanticDeps : Bool
  entries : List (Option String)

/-- The dependency-relevant state of an `Inventory` after
`buildComponentsGraph`. -/
structure GraphState where
  requires : List (String × List String)
  requiredBy : List (String × List String)
  buildRequires : List (String × List String)
  buildRequiredBy : List (String × List String)
  topOrder : List String
deriving DecidableEq

/-- The `for _, entry := range tasks` loop: every entry with a non-empty
`include_role.name` adds the edge to both directions. -/
def processEntries (requiresMap requiredByMap : List (String × List String))
    (componentName : String) :
    List (Option String) → List (String × List String) × List (String × List String)
  | [] => (requiresMap, requiredByMap)
  | none :: rest => processEntries requiresMap requiredByMap componentName rest
  | some n :: rest =>
    if n = "" then processEntries requiresMap requiredByMap componentName rest
    else
      processEntries (depAdd requiresMap componentName n)
        (depAdd requiredByMap n componentName) componentName rest

/-- Processing of one task file: empty task lists are skipped before the
`requires` entry is created; `dependencies.yaml` feeds the semantic maps,
every other task file the build maps. -/
def processTaskFile (st : GraphState) (f : TaskFile) : GraphState :=
  if f.entries = [] then st
  else if f.isSemanticDeps then
    let rm := depEnsure st.requires f.component
    let p := processEntries rm st.requiredBy f.component f.entries
    { st with requires := p.1, requiredBy := p.2 }
  else
    let rm := depEnsure st.buildRequires f.component
    let p := processEntries rm st.buildRequiredBy f.component f.entries
    { st with buildRequires := p.1, buildRequiredBy := p.2 }

/-- The synthetic root: every key of `requiredBy` without a `requires`
entry becomes a member of `requiredBy["platform"]` (overwriting any
existing entry under that key). -/
def platformStep (st : GraphState) : GraphState :=
  let items := (st.requiredBy.map Prod.fst).filter
    (fun c => (alookup st.requires c).isNone)
  { st with requiredBy := amSet st.requiredBy "platform" items }

/-- Modelled from the spec: the `topsort` graph library used by
`buildComponentsGraph` is not part of this repository.  Per the spec the
semantic-dependency graph rooted at `platform` is topologically sorted
and cycles produce a fatal error.  Depth-first search: every edge target
is emitted before its source, the root comes last, a repeated node on the
current path (a cycle) or exhausted fuel yields `none`. -/
def topVisit (adj : List (String × List String)) :
    Nat → String → List String → List String → Option (List String)
  | 0, _, _, _ => none
  | fuel + 1, n, gray, out =>
    if n ∈ out then some out
    else if n ∈ gray then none
    else
      match (depGet adj n).foldl
          (fun acc m => acc.bind (topVisit adj fuel m (n :: gray))) (some out) with
      | none => none
      | some out2 => some (out2 ++ [n])

/-- The sibling loop of the DFS, spelt out for reasoning. -/
def topFold (adj : List (String × List String)) (fuel : Nat)
    (gray : List String) (ms : List String) (acc : Option (List String)) :
    Option (List String) :=
  ms.foldl (fun a m => a.bind (topVisit adj fuel m gray)) acc

/-- All node names mentioned by an adjacency list; bounds the DFS depth. -/
def graphNodes (adj : List (String × List String)) : List String :=
  adj.foldl (fun acc p => acc ++ p.1 :: p.2) []

def topSort (adj : List (String × List String)) (root : String) :
    Option (List String) :=
  topVisit adj ((graphNodes adj).length + 2) root [] []

/-- The dependency-graph portion of `buildComponentsGraph`
(src/unnamed/part_004): fold the discovered task files into the four
dependency maps, add the synthetic `platform` root, topologically sort
the semantic `requiredBy` graph from `platform` and reverse the result so
`platform` comes first; failure of the sort fails construction. -/
def buildComponentsGraph (files : List TaskFile) : Option GraphState :=
  let st := files.foldl processTaskFile ⟨[], [], [], [], []⟩
  let st := platformStep st
  match topSort st.requiredBy "platform" with
  | none => none
  | some order => some { st with topOrder := order.reverse }

/-- Element `a` occurs (strictly) before `b` in the list. -/
def precedes (l : List String) (a b : String) : Prop :=
  ∃ i : Fin l.length, ∃ j : Fin l.length,
    i.val < j.val ∧ l.get i = a ∧ l.get j = b

instance (l : List String) (a b : String) : Decidable (precedes l a b) := by
  unfold precedes
  infer_instance

/-- The two directions of a dependency relation agree. -/
def Mirror (rm rbm : List (String × List String)) : Prop :=
  ∀ a b, a ∈ depGet rm b ↔ b ∈ depGet rbm a

/-- Both semantic and build maps are mirrored. -/
def MirrorS (st : GraphState) : Prop :=
  Mirror st.requires st.requiredBy ∧ Mirror st.buildRequires st.buildRequiredBy

/-- Every edge target of an emitted node was emitted before it. -/
def GoodOut (adj : List (String × List String)) (out : List String) : Prop :=
  ∀ a, a ∈ out → ∀ b, b ∈ depGet adj a → precedes out b a

/-! ### Claims C1, C7, C8 -/
def filesC1 : List TaskFile :=
  [⟨"u.l.k", true, [none]⟩, ⟨"v.l.k", true, [some "u.l.k"]⟩]

def stC1 : GraphState :=
  ⟨[("u.l.k", []), ("v.l.k", ["u.l.k"])],
   [("u.l.k", ["v.l.k"]), ("platform", [])], [], [], ["platform"]⟩

def filesC1w : List TaskFile := [⟨"w.a.b", true, [some "t.a.b"]⟩]

def stC1w : GraphState :=
  ⟨[("w.a.b", ["t.a.b"])],
   [("t.a.b", ["w.a.b"]), ("platform", ["t.a.b"])], [], [],
   ["platform", "t.a.b", "w.a.b"]⟩

def filesC7 : List TaskFile := [⟨"x.y.z", true, [some "a.b.c"]⟩]

def stC7 : GraphState :=
  ⟨[("x.y.z", ["a.b.c"])],
   [("a.b.c", ["x.y.z"]), ("platform", ["a.b.c"])], [], [],
   ["platform", "a.b.c", "x.y.z"]⟩

def filesC8 : List TaskFile := [⟨"v.a.b", true, [some "u.a.b"]⟩]

def stC8 : GraphState :=
  ⟨[("v.a.b", ["u.a.b"])],
   [("u.a.b", ["v.a.b"]), ("platform", ["u.a.b"])], [], [],
   ["platform", "u.a.b", "v.a.b"]⟩

/-- A component as the propagation engine sees it: dot-name and kind. -/
structure SComponent where
  name : String
  kind : String
deriving DecidableEq

/-- A variable of a `TimelineVariablesItem`: name and platform layer. -/
structure SVariable where
  name : String
  platform : String
deriving DecidableEq

/-- Interface `TimelineItem`: the two implementations present in the repository
(`TimelineComponentsItem`, `TimelineVariablesItem`); commit dates are
modelled as integers, member maps as lists keyed by name. -/
inductive TItem where
  | comps (version commit : String) (date : Int) (members : List SComponent)
  | vars (version commit : String) (date : Int) (members : List SVariable)
deriving DecidableEq

def TItem.date : TItem → Int
  | .comps _ _ d _ => d
  | .vars _ _ d _ => d

def TItem.version : TItem → String
  | .comps v _ _ _ => v
  | .vars v _ _ _ => v

def TItem.isVars : TItem → Bool
  | .comps _ _ _ _ => false
  | .vars _ _ _ _ => true

/-- The comparator closure passed to `sort.Slice` by `SortTimeline`
(src/internal/sync/timeline.go): strict date comparison first, then
variant priority on equal dates. -/
def timelineLess (order : String) (a b : TItem) : Bool :=
  if a.date ≠ b.date then
    if order = "asc" then decide (a.date < b.date) else decide (b.date < a.date)
  else
    match a, b with
    | .vars _ _ _ _, .vars _ _ _ _ => false
    | .vars _ _ _ _, .comps _ _ _ _ => order = "asc"
    | .comps _ _ _ _, .vars _ _ _ _ => order = "desc"
    | .comps _ _ _ _, .comps _ _ _ _ => false

/-- The documented contract of Go `sort.Slice` applied to the
`SortTimeline` comparator: the output is a permutation of the input in
which no later element compares less than an earlier one.  `sort.Slice`
is documented as NOT stable, so every output satisfying this contract is
a possible result. -/
def SortTimelineSpec (order : String) (input output : List TItem) : Prop :=
  input.Perm output ∧
  List.Pairwise (fun x y => timelineLess order y x = false) output

def tlA : TItem := TItem.comps "v1" "c1" 0 []

def tlB : TItem := TItem.comps "v2" "c2" 0 []

def tlW : TItem := TItem.vars "v0" "c0" 0 []

def tlW2 : TItem := TItem.comps "v1" "c1" 1 []

/-- A commit of the first-parent log: full hash, author name, author
timestamp (modelled as an integer). -/
structure GCommit where
  hash : String
  author : String
  date : Int
deriving DecidableEq

/-- A contiguous group of the log delimited by bump commits. -/
structure CommitsGroup where
  name : String
  commit : String
  items : List String
  date : Int
deriving DecidableEq

/-- The per-hash record of the commits map: the full hash and the group
the commit belongs to. -/
structure HashEntry where
  original : String
  sect : String
deriving DecidableEq

/-- Slice `hash[:13]` on an ASCII hex hash: the first 13 characters. -/
def take13 (s : String) : String := String.mk (s.data.take 13)

/-- The mutable state of the `cIter.ForEach` callback in
`collectComponentsCommits` (src/unnamed/part_006). -/
structure CCState where
  hashes : List (String × HashEntry)
  commits : List String
  sect : String
  sectName : String
  sectDate : Int
  groups : List (String × CommitsGroup)
deriving DecidableEq

/-- The `ForEach` iteration of `collectComponentsCommits`.  The `before`
cutoff stops iteration via `storer.ErrStop`; a duplicate 13-character
hash makes the callback return an error, which stops the iteration but
is DISCARDED by the caller (`_ = cIter.ForEach(...)`), so it too merely
stops the loop. -/
def ccLoop (bumpAuthor headHash : String) (before : Option Int)
    (st : CCState) : List GCommit → CCState
  | [] => st
  | c :: rest =>
    if (match before with
        | some b => decide (c.date < b)
        | none => false) then st
    else
      let hash13 := take13 c.hash
      match alookup st.hashes hash13 with
      | some _ => st
      | none =>
        if c.hash = headHash then
          if c.author = bumpAuthor then
            ccLoop bumpAuthor headHash before
              { hashes := st.hashes ++ [(hash13, ⟨c.hash, c.hash⟩)],
                commits := [], sect := c.hash, sectName := c.hash,
                sectDate := c.date, groups := st.groups } rest
          else
            ccLoop bumpAuthor headHash before
              { hashes := st.hashes ++ [(hash13, ⟨c.hash, "head"⟩)],
                commits := [c.hash], sect := headHash, sectName := "head",
                sectDate := c.date, groups := st.groups } rest
        else
          if c.author = bumpAuthor then
            ccLoop bumpAuthor headHash before
              { hashes := st.hashes ++ [(hash13, ⟨c.hash, ""⟩)],
                commits := [], sect := c.hash, sectName := c.hash,
                sectDate := c.date,
                groups := amSet st.groups st.sect
                  ⟨st.sectName, st.sect, st.commits, st.sectDate⟩ } rest
          else
            ccLoop bumpAuthor headHash before
              { hashes := st.hashes ++ [(hash13, ⟨c.hash, st.sect⟩)],
                commits := st.commits ++ [c.hash], sect := st.sect,
                sectName := st.sectName, sectDate := st.sectDate,
                groups := st.groups } rest

/-- Function `collectComponentsCommits` (src/unnamed/part_006): partitions the
first-parent log (`commits`, newest first) into bump-delimited groups.
The bump author is a configuration constant of the missing
internal/repository package and is passed as a parameter; the `before`
cutoff is the already-parsed `timeDepth` date.  An empty log models a
repository whose HEAD cannot be resolved. -/
def collectComponentsCommits (bumpAuthor : String) (commits : List GCommit)
    (before : Option Int) :
    Except String (List (String × CommitsGroup) × List (String × HashEntry)) :=
  match commits with
  | [] => Except.error "cant get HEAD ref"
  | chead :: _ =>
    let st := ccLoop bumpAuthor chead.hash before ⟨[], [], "", "", 0, []⟩ commits
    let groups := match alookup st.groups st.sect with
      | some _ => st.groups
      | none => amSet st.groups st.sect
          ⟨st.sectName, st.sect, st.commits, st.sectDate⟩
    Except.ok (groups, st.hashes)

def cexCommits : List GCommit :=
  [⟨"aaaaaaaaaaaaa1", "dev", 10⟩, ⟨"aaaaaaaaaaaaa2", "dev", 5⟩]

/-- Method `GetBaseVersion` of a component, over an environment mapping
component names to the version string read from their metadata (or a
read error): returns `(split[0], version)`. -/
def getBaseVersion (env : String → Except String GoStr) (name : String) :
    Except String (GoStr × GoStr) :=
  match env name with
  | Except.error e => Except.error e
  | Except.ok v => Except.ok (baseOf v, v)

/-- Lookup `componentVersionMap[name]` with the Go zero value for a missing
key. -/
def cvmGet (m : List (String × GoStr)) (k : String) : GoStr :=
  (alookup m k).getD []

/-- The planning loop of `updateComponents` (src/actions/sync/sync.go):
collects the update plan, records `stopPropagation` on an empty current
version, returns early on a version-read error. -/
def planLoop (env : String → Except String GoStr)
    (cvm : List (String × GoStr)) :
    List String → List (String × GoStr × GoStr) → List String → Bool →
    Except String (List (String × GoStr × GoStr) × List String × Bool)
  | [], updateMap, sortList, stop => Except.ok (updateMap, sortList, stop)
  | k :: rest, updateMap, sortList, stop =>
    match getBaseVersion env k with
    | Except.error e => Except.error e
    | Except.ok (baseVersion, currentVersion) =>
      let stop2 := if currentVersion = [] then true else stop
      let newVersion := composeVersion currentVersion (cvmGet cvm k)
      if baseVersion = cvmGet cvm k then
        planLoop env cvm rest updateMap sortList stop2
      else
        planLoop env cvm rest (amSet updateMap k (newVersion, currentVersion))
          (sortList ++ [k]) stop2

/-- Result of an `updateComponents` run: the `UpdateVersion` calls
performed and the returned error, if any. -/
structure UpdateResult where
  writes : List (String × GoStr)
  err : Option String
deriving DecidableEq

/-- Function `updateComponents` (src/actions/sync/sync.go): plan updates over the
keys of `toSync`, abort with a single error after the loop when any
component had an empty version, otherwise write the planned versions in
alphabetical key order (skipped in dry-run mode). -/
def updateComponents (env : String → Except String GoStr)
    (cvm : List (String × GoStr)) (toSyncKeys : List String)
    (dryRun : Bool) : UpdateResult :=
  match planLoop env cvm toSyncKeys [] [] false with
  | Except.error e => ⟨[], some e⟩
  | Except.ok (updateMap, sortList, stop) =>
    if stop then ⟨[], some "empty version has been detected, please check log"⟩
    else if updateMap.isEmpty then ⟨[], none⟩
    else
      ⟨if dryRun then []
       else (sortStrs sortList).map
         (fun k => (k, ((alookup updateMap k).map Prod.fst).getD [])), none⟩

/-- A concrete version environment recording an empty version for every
component. -/
def envC6 : String → Except String GoStr := fun _ => Except.ok []

/-- namespace → the component names present in its inventory map. -/
abbrev NsMaps := List (String × List String)

/-- The version reads performed by the conflict-resolution loop: the
composed build's full version of a component, and a namespace copy's
version. -/
structure ConflictEnv where
  buildVersion : String → Except String GoStr
  nsVersion : String → String → Except String GoStr

/-- Components of namespace `ns` (empty when the namespace is unknown). -/
def nsGet (cm : NsMaps) (ns : String) : List String :=
  (alookup cm ns).getD []

/-- Operation `componentsMap[ns].Unset(comp)`. -/
def nsUnset : NsMaps → String → String → NsMaps
  | [], _, _ => []
  | (k, v) :: rest, ns, comp =>
    if k = ns then
      (k, v.filter (fun x => decide (x ≠ comp))) :: nsUnset rest ns comp
    else (k, v) :: nsUnset rest ns comp

/-- The base-version filter of the conflict loop: a namespace whose base
version differs from the build's full version loses the component, the
others are collected as the same-version namespaces. -/
def baseFilter (env : ConflictEnv) (bv : GoStr) (comp : String) :
    List String → NsMaps → Except String (NsMaps × List String)
  | [], cm => Except.ok (cm, [])
  | ns :: rest, cm =>
    match env.nsVersion ns comp with
    | Except.error e => Except.error e
    | Except.ok v =>
      if baseOf v ≠ bv then
        baseFilter env bv comp rest (nsUnset cm ns comp)
      else
        match baseFilter env bv comp rest cm with
        | Except.error e => Except.error e
        | Except.ok (cm2, same) => Except.ok (cm2, ns :: same)

/-- One step of the final unset loop: iterating priority indices
high-to-low, every namespace other than `highest` that exists in the
components map loses the component. -/
def unsetStep (comp highest : String) (acc : NsMaps) (ns : String) : NsMaps :=
  if ns = highest then acc
  else if (alookup acc ns).isSome then nsUnset acc ns comp
  else acc

/-- One iteration of the conflict-resolution loop of `getComponentsMaps`
(src/actions/sync/sync.go) for a single component of the composed build:
find the namespaces containing it, drop copies whose base version
differs from the build's full version, and when several same-version
namespaces remain keep only `highest` — the last entry of the priority
order present in the components map (the domain), regardless of whether
it is one of the same-version namespaces. -/
def resolveComponent (env : ConflictEnv) (priorityOrder : List String)
    (cm : NsMaps) (comp : String) : Except String NsMaps :=
  let conflicts := (cm.filter (fun p => decide (comp ∈ p.2))).map Prod.fst
  if conflicts.length < 2 then Except.ok cm
  else
    match env.buildVersion comp with
    | Except.error e => Except.error e
    | Except.ok bv =>
      match baseFilter env bv comp conflicts cm with
      | Except.error e => Except.error e
      | Except.ok (cm2, same) =>
        if 1 < same.length then
          let highest := (priorityOrder.reverse.find?
            (fun ns => (alookup cm2 ns).isSome)).getD ""
          Except.ok (priorityOrder.reverse.foldl (unsetStep comp highest) cm2)
        else Except.ok cm2

/-- The conflict-resolution loop over all components of the composed
build. -/
def getComponentsMapsResolve (env : ConflictEnv)
    (priorityOrder : List String) (cm : NsMaps) :
    List String → Except String NsMaps
  | [] => Except.ok cm
  | c :: rest =>
    match resolveComponent env priorityOrder cm c with
    | Except.error e => Except.error e
    | Except.ok cm2 => getComponentsMapsResolve env priorityOrder cm2 rest

def envC4 : ConflictEnv :=
  ⟨fun _ => Except.ok ['v'], fun _ _ => Except.ok ['v']⟩

def cmC4 : NsMaps := [("p1", ["c.a.b"]), ("p2", ["c.a.b"]), ("domain", [])]

def envC4w : ConflictEnv :=
  ⟨fun _ => Except.ok ['v'], fun _ _ => Except.ok ['v']⟩

def cmC4w : NsMaps := [("p1", ["c.a.b"]), ("domain", ["c.a.b"])]

/-- The closed set of updatable component kinds (src/unnamed/part_004). -/
def Kinds : List String :=
  ["applications", "services", "softwares", "executors", "flows", "skills",
   "functions", "libraries", "entities"]

/-- Function `IsUpdatableKind` (src/unnamed/part_005). -/
def IsUpdatableKind (kind : String) : Bool := Kinds.contains kind

/-- Function `lookupDependenciesRecursively` (src/unnamed/part_004): each member
is added to the result and then expanded.  The `int8` depth counter
starts at 1 and stops when it reaches the limit `-1` after wrapping, so
with an unbounded depth exactly 255 expansion levels happen; the fuel
argument models that counter. -/
def lookupRec (m : List (String × List String)) :
    Nat → String → List String → List String
  | 0, _, result => result
  | fuel + 1, name, result =>
    (depGet m name).foldl
      (fun acc item => lookupRec m fuel item (okSet acc item)) result

/-- Method `GetRequiredByComponents(name, -1)` (src/unnamed/part_004): the
transitive closure of the semantic `requiredBy` map, as the key set of
the Go result map in insertion order. -/
def GetRequiredByComponents (requiredBy : List (String × List String))
    (name : String) : List String :=
  lookupRec requiredBy 255 name []

/-- Remove a key from an association map (`delete(m, k)` /
`OrderedMap.Unset`). -/
def amUnset {α : Type _} : List (String × α) → String → List (String × α)
  | [], _ => []
  | (k, v) :: rest, key =>
    if k = key then amUnset rest key else (k, v) :: amUnset rest key

/-- Find a component of the build inventory map by name. -/
def compGet (cs : List SComponent) (name : String) : Option SComponent :=
  cs.find? (fun c => decide (c.name = name))

/-- Method `SortKeysAlphabetically` over a components map: insertion sort by
name (keys are unique, so stability is irrelevant). -/
def insertComp (c : SComponent) : List SComponent → List SComponent
  | [] => [c]
  | c2 :: rest =>
    if strLeB c.name c2.name then c :: c2 :: rest else c2 :: insertComp c rest

def sortComps : List SComponent → List SComponent
  | [] => []
  | c :: rest => insertComp c (sortComps rest)

def insertVar (v : SVariable) : List SVariable → List SVariable
  | [] => [v]
  | v2 :: rest =>
    if strLeB v.name v2.name then v :: v2 :: rest else v2 :: insertVar v rest

def sortVars : List SVariable → List SVariable
  | [] => []
  | v :: rest => insertVar v (sortVars rest)

/-- Go `slices.Compact`: squeeze runs of adjacent duplicates. -/
def compactStrs : List String → List String
  | [] => []
  | [x] => [x]
  | x :: y :: rest =>
    if x = y then compactStrs (y :: rest) else x :: compactStrs (y :: rest)

/-- The inventory data and options the walk consults: the build
inventory's components map and semantic `requiredBy` map, the
variable→components resolution, and the usage filter (`usedComponents`
is empty unless `FilterByComponentUsage` is set, exactly as in the local
variable of `buildPropagationMap`). -/
structure WalkEnv where
  componentsMap : List SComponent
  requiredBy : List (String × List String)
  varComponents : String → String → List String
  filterByUsage : Bool
  usedComponents : List String

/-- The walk's mutable state.  Besides the code's `processed` set,
`toSync` map and `componentVersionMap` (`cvm`), the embedding records
every map assignment as an event `(item index, key, version)` and
accumulates the direct members each ComponentsItem actually processed
(`directs`), to state the single-assignment claims. -/
structure WalkState where
  processed : List String
  toSync : List (String × SComponent)
  cvm : List (String × String)
  events : List (Nat × String × String)
  directs : List String
deriving DecidableEq

/-- The dependent-components loop shared by both timeline branches
(src/actions/sync/sync.go, lines 413-437 and 510-533): skip dependents
missing from the build map or already processed, mark the rest
processed, and assign the item's version to the updatable ones. -/
def depsLoop (env : WalkEnv) (idx : Nat) (ver : String)
    (deps : List String) (st : WalkState) : WalkState :=
  deps.foldl
    (fun st dep =>
      match compGet env.componentsMap dep with
      | none => st
      | some depComponent =>
        if dep ∈ st.processed then st
        else
          let st2 := { st with processed := okSet st.processed dep }
          if IsUpdatableKind depComponent.kind then
            { st2 with toSync := amSet st2.toSync dep depComponent,
                       cvm := amSet st2.cvm dep ver,
                       events := st2.events ++ [(idx, dep, ver)] }
          else st2) st

/-- The per-member loop of a ComponentsItem: mark the member processed
and propagate to its (optionally usage-filtered) `requiredBy` closure. -/
def compsProcessLoop (env : WalkEnv) (idx : Nat) (ver : String)
    (members : List SComponent) :
    List String → WalkState → Except String WalkState
  | [], st => Except.ok st
  | key :: rest, st =>
    match compGet members key with
    | none =>
      Except.error ("unknown key " ++ key ++ " detected during timeline iteration")
    | some c =>
      let st2 := { st with processed := okSet st.processed key }
      let deps := GetRequiredByComponents env.requiredBy c.name
      let deps := if env.filterByUsage then
          deps.filter (fun dc => decide (dc ∈ env.usedComponents))
        else deps
      compsProcessLoop env idx ver members rest (depsLoop env idx ver deps st2)

/-- The final unset loop of a ComponentsItem: its processed direct
members are removed from `toSync` and from the version map. -/
def unsetLoop (toProcess : List String) (st : WalkState) : WalkState :=
  toProcess.foldl
    (fun st key =>
      { st with toSync := amUnset st.toSync key, cvm := amUnset st.cvm key })
    st

/-- One ComponentsItem of the walk: alphabetise members, keep the
unprocessed updatable ones, process them, then unset them from the maps
(recording them in `directs`). -/
def walkCompsItem (env : WalkEnv) (idx : Nat) (ver : String)
    (members : List SComponent) (st : WalkState) : Except String WalkState :=
  let sorted := sortComps members
  let toProcess := (sorted.filter
    (fun c => decide (c.name ∉ st.processed) && IsUpdatableKind c.kind)).map
      SComponent.name
  if toProcess.isEmpty then Except.ok st
  else
    match compsProcessLoop env idx ver sorted toProcess st with
    | Except.error e => Except.error e
    | Except.ok st2 =>
      let st3 := unsetLoop toProcess st2
      Except.ok { st3 with directs := st3.directs ++ toProcess }

/-- The per-component body of a VariablesItem: assign the version to the
component itself (unguarded by `processed`) when its kind is updatable,
then to its `requiredBy` closure. -/
def varsBody (env : WalkEnv) (idx : Nat) (ver : String)
    (st : WalkState) (c : String) : WalkState :=
  match compGet env.componentsMap c with
  | none => st
  | some mainComponent =>
    let st2 := { st with processed := okSet st.processed c }
    let st3 := if IsUpdatableKind mainComponent.kind then
        { st2 with toSync := amSet st2.toSync c mainComponent,
                   cvm := amSet st2.cvm c ver,
                   events := st2.events ++ [(idx, c, ver)] }
      else st2
    depsLoop env idx ver (GetRequiredByComponents env.requiredBy c) st3

def walkVarsItem (env : WalkEnv) (idx : Nat) (ver : String)
    (vmembers : List SVariable) (st : WalkState) : WalkState :=
  let components := (sortVars vmembers).foldl
    (fun acc v =>
      let vc := env.varComponents v.name v.platform
      if env.usedComponents.isEmpty then acc ++ vc
      else acc ++ vc.filter (fun c => decide (c ∈ env.usedComponents))) []
  let components := compactStrs (sortStrs components)
  let toProcess := components.filter (fun key => decide (key ∉ st.processed))
  if toProcess.isEmpty then st
  else toProcess.foldl (varsBody env idx ver) st

/-- The timeline iteration of `buildPropagationMap`
(src/actions/sync/sync.go): dispatch on the item variant. -/
def walkItems (env : WalkEnv) :
    List TItem → Nat → WalkState → Except String WalkState
  | [], _, st => Except.ok st
  | item :: rest, idx, st =>
    match item with
    | TItem.comps ver _ _ members =>
      match walkCompsItem env idx ver members st with
      | Except.error e => Except.error e
      | Except.ok st2 => walkItems env rest (idx + 1) st2
    | TItem.vars ver _ _ vmembers =>
      walkItems env rest (idx + 1) (walkVarsItem env idx ver vmembers st)

/-- Function `buildPropagationMap` over an already-sorted timeline (the caller
sorts descending by date via `SortTimeline`; the invariants below hold
for every item order). -/
def buildPropagationMap (env : WalkEnv) (timeline : List TItem) :
    Except String WalkState :=
  walkItems env timeline 0 ⟨[], [], [], [], []⟩

/-- The direct member names of all ComponentsItems of a timeline. -/
def directMemberNames (tl : List TItem) : List String :=
  tl.foldl
    (fun acc item =>
      match item with
      | TItem.comps _ _ _ ms => acc ++ ms.map SComponent.name
      | TItem.vars _ _ _ _ => acc) []

/-- What one inner operation of a timeline item does to the state, where
`P` is the `processed` set at the item's start: `processed` grows,
`directs` is untouched, new events carry the item's index and version
and an item-fresh key, entries of the version map are either inherited
unchanged or item-fresh assignments of the item's version backed by a
recorded event. -/
def Step (P : List String) (idx : Nat) (ver : String)
    (pre post : WalkState) : Prop :=
  (∀ k ∈ pre.processed, k ∈ post.processed) ∧
  post.directs = pre.directs ∧
  (∃ new, post.events = pre.events ++ new ∧
    ∀ e ∈ new, e.1 = idx ∧ e.2.2 = ver ∧ e.2.1 ∉ P ∧ e.2.1 ∈ post.processed) ∧
  (∀ k, k ∈ P → alookup post.cvm k = alookup pre.cvm k) ∧
  (∀ k v, alookup post.cvm k = some v →
    alookup pre.cvm k = some v ∨
    (v = ver ∧ k ∉ P ∧ k ∈ post.processed ∧ (idx, k, ver) ∈ post.events))

/-- The walk invariant: keys of the version map are processed, every map
entry is backed by an assignment event, assignments to a key agree on
item and version, and no key of the map is a processed direct member. -/
def StInv (st : WalkState) : Prop :=
  (∀ k, (alookup st.cvm k).isSome = true → k ∈ st.processed) ∧
  (∀ k ∈ st.directs, k ∈ st.processed) ∧
  (∀ k, (alookup st.cvm k).isSome = true → k ∉ st.directs) ∧
  (∀ e ∈ st.events, e.2.1 ∈ st.processed) ∧
  (∀ e1 ∈ st.events, ∀ e2 ∈ st.events, e1.2.1 = e2.2.1 →
    e1.1 = e2.1 ∧ e1.2.2 = e2.2.2) ∧
  (∀ k v, alookup st.cvm k = some v →
    ∃ e ∈ st.events, e.2.1 = k ∧ e.2.2 = v)

def envC3 : WalkEnv :=
  { componentsMap := [⟨"a", "applications"⟩, ⟨"m", "applications"⟩,
      ⟨"c1", "applications"⟩, ⟨"c2", "applications"⟩],
    requiredBy := [("a", ["m"]), ("c1", ["c2"])],
    varComponents := fun n _ =>
      if n = "var1" then ["c1"] else if n = "var2" then ["c2"] else [],
    filterByUsage := false,
    usedComponents := [] }

def tlC3 : List TItem :=
  [TItem.comps "v1" "h1" 30 [⟨"a", "applications"⟩],
   TItem.vars "v2" "h2" 20 [⟨"var1", "p"⟩, ⟨"var2", "p"⟩],
   TItem.comps "v3" "h3" 10 [⟨"m", "applications"⟩]]

def stC3 : WalkState :=
  { processed := ["a", "m", "c1", "c2"],
    toSync := [("m", ⟨"m", "applications"⟩), ("c1", ⟨"c1", "applications"⟩),
      ("c2", ⟨"c2", "applications"⟩)],
    cvm := [("m", "v1"), ("c1", "v2"), ("c2", "v2")],
    events := [(0, "m", "v1"), (1, "c1", "v2"), (1, "c2", "v2"),
      (1, "c2", "v2")],
    directs := ["a"] }

def envC3w : WalkEnv :=
  { componentsMap := [⟨"a", "applications"⟩, ⟨"m", "applications"⟩],
    requiredBy := [("a", ["m"])],
    varComponents := fun _ _ => [],
    filterByUsage := false,
    usedComponents := [] }

def tlC3w : List TItem := [TItem.comps "v1" "h1" 5 [⟨"a", "applications"⟩]]

def stC3w : WalkState :=
  { processed := ["a", "m"],
    toSync := [("m", ⟨"m", "applications"⟩)],
    cvm := [("m", "v1")],
    events := [(0, "m", "v1")],
    directs := ["a"] }

theorem splitDash_ne_nil (s : GoStr) : splitDash s ≠ [] := by
  induction s with
  | nil => simp [splitDash]
  | cons c rest ih =>
    simp only [splitDash]
    by_cases h : c = '-'
    · simp [h]
    · simp only [if_neg h]
      cases hr : splitDash rest with
      | nil => simp
      | cons a t => simp

theorem splitDash_of_not_mem {s : GoStr} (h : '-' ∉ s) : splitDash s = [s] := by
  induction s with
  | nil => rfl
  | cons c rest ih =>
    simp only [List.mem_cons, not_or] at h
    obtain ⟨h1, h2⟩ := h
    have hne : c ≠ '-' := fun hc => h1 hc.symm
    simp only [splitDash, if_neg hne, ih h2]

theorem one_lt_splitDash_length_of_mem {s : GoStr} (h : '-' ∈ s) :
    1 < (splitDash s).length := by
  induction s with
  | nil => simp at h
  | cons c rest ih =>
    simp only [splitDash]
    by_cases hc : c = '-'
    · simp only [if_pos hc, List.length_cons]
      have := List.length_pos.mpr (splitDash_ne_nil rest)
      omega
    · simp only [if_neg hc]
      have hmem : '-' ∈ rest := by
        rcases List.mem_cons.mp h with h1 | h1
        · exact absurd h1.symm hc
        · exact h1
      have hlen := ih hmem
      cases hr : splitDash rest with
      | nil => exact absurd hr (splitDash_ne_nil rest)
      | cons a t =>
        rw [hr] at hlen
        simpa using hlen

theorem not_mem_of_splitDash_length_le {s : GoStr}
    (h : (splitDash s).length ≤ 1) : '-' ∉ s := by
  intro hmem
  have := one_lt_splitDash_length_of_mem hmem
  omega

/-- The first part of `splitDash` carries no dash. -/
theorem not_mem_headD_splitDash (s : GoStr) :
    '-' ∉ (splitDash s).headD [] := by
  induction s with
  | nil => simp [splitDash]
  | cons c rest ih =>
    simp only [splitDash]
    by_cases hc : c = '-'
    · simp [hc]
    · simp only [if_neg hc]
      cases hr : splitDash rest with
      | nil => exact absurd hr (splitDash_ne_nil rest)
      | cons a t =>
        rw [hr] at ih
        simp only [List.headD_cons] at ih ⊢
        simp only [List.mem_cons, not_or]
        exact ⟨fun h => hc h.symm, ih⟩

/-- Splitting a string that starts with a dash-free part followed by a dash. -/
theorem splitDash_append_dash {a : GoStr} (y : GoStr) (h : '-' ∉ a) :
    splitDash (a ++ '-' :: y) = a :: splitDash y := by
  induction a with
  | nil => simp [splitDash]
  | cons c rest ih =>
    simp only [List.mem_cons, not_or] at h
    obtain ⟨h1, h2⟩ := h
    have hne : c ≠ '-' := fun hc => h1 hc.symm
    simp only [List.cons_append, splitDash, if_neg hne]
    rw [show rest.append ('-' :: y) = rest ++ '-' :: y from rfl, ih h2]

theorem baseOf_of_not_mem {s : GoStr} (h : '-' ∉ s) : baseOf s = s := by
  simp [baseOf, splitDash_of_not_mem h]

theorem baseOf_append_dash {a : GoStr} (y : GoStr) (h : '-' ∉ a) :
    baseOf (a ++ '-' :: y) = a := by
  simp [baseOf, splitDash_append_dash y h]

theorem composeVersion_of_mem {y : GoStr} (x : GoStr) (h : '-' ∈ y) :
    composeVersion x y = y := by
  simp [composeVersion, if_pos (one_lt_splitDash_length_of_mem h)]

theorem composeVersion_of_not_mem {y : GoStr} (x : GoStr) (h : '-' ∉ y) :
    composeVersion x y = baseOf x ++ '-' :: y := by
  have hy : splitDash y = [y] := splitDash_of_not_mem h
  by_cases hx : '-' ∈ x
  · have hlen := one_lt_splitDash_length_of_mem hx
    simp only [composeVersion, hy, List.length_cons, List.length_nil]
    rw [if_neg (by omega), if_neg (by omega), if_pos hlen]
    rfl
  · have hxs : splitDash x = [x] := splitDash_of_not_mem hx
    simp [composeVersion, hy, hxs, baseOf_of_not_mem hx]

/-- C2 counterexample: when the new version itself contains a dash,
`composeVersion` returns it unchanged, so the base of the result is the
base of the new version, not of the old one: for `x = "a"` and
`y = "b-c"`, `base(compose(x, y)) = "b" ≠ "a" = base(x)`. -/
theorem composeVersion_base_counterexample :
    '-' ∈ (['b', '-', 'c'] : GoStr) ∧
    composeVersion ['a'] ['b', '-', 'c'] = ['b', '-', 'c'] ∧
    baseOf (composeVersion ['a'] ['b', '-', 'c']) ≠ baseOf ['a'] := by
  decide

/-- C2 (amended): `composeVersion x y` returns `y` whenever `y` contains a
dash; otherwise it returns `base(x) ++ "-" ++ y`, and in that dash-free
case `base(composeVersion x y) = base(x)`. -/
theorem composeVersion_laws (x y : GoStr) :
    ('-' ∈ y → composeVersion x y = y) ∧
    ('-' ∉ y →
      composeVersion x y = baseOf x ++ '-' :: y ∧
      baseOf (composeVersion x y) = baseOf x) := by
  refine ⟨fun h => composeVersion_of_mem x h, fun h => ?_⟩
  have hc := composeVersion_of_not_mem x h
  refine ⟨hc, ?_⟩
  rw [hc, baseOf_append_dash y ?_]
  exact not_mem_headD_splitDash x

/-- Witness for `composeVersion_laws` at `x = "a-b"`, `y = "c"`. -/
theorem composeVersion_laws_witness :
    composeVersion ['a', '-', 'b'] ['c'] =
      baseOf ['a', '-', 'b'] ++ '-' :: ['c'] ∧
    baseOf (composeVersion ['a', '-', 'b'] ['c']) = baseOf ['a', '-', 'b'] :=
  (composeVersion_laws ['a', '-', 'b'] ['c']).2 (by decide)

/-- C10: `GetMetaVersion` is total and never fails: it returns `""` when
the `plasma` key is absent, when its value is not a mapping, and when
`plasma.version` is absent or null; it returns a string value unchanged;
and it returns the default formatted rendering of any non-string value. -/
theorem GetMetaVersion_total (meta : List (String × Yaml)) :
    (alookup meta "plasma" = none → GetMetaVersion meta = "") ∧
    (∀ v, alookup meta "plasma" = some v → (∀ es, v ≠ Yaml.map es) →
      GetMetaVersion meta = "") ∧
    (∀ pl, alookup meta "plasma" = some (Yaml.map pl) →
      alookup pl "version" = none → GetMetaVersion meta = "") ∧
    (∀ pl, alookup meta "plasma" = some (Yaml.map pl) →
      alookup pl "version" = some Yaml.null → GetMetaVersion meta = "") ∧
    (∀ pl s, alookup meta "plasma" = some (Yaml.map pl) →
      alookup pl "version" = some (Yaml.str s) → GetMetaVersion meta = s) ∧
    (∀ pl v, alookup meta "plasma" = some (Yaml.map pl) →
      alookup pl "version" = some v → v ≠ Yaml.null → (∀ s, v ≠ Yaml.str s) →
      GetMetaVersion meta = goSprint v) := by
  refine ⟨fun h => by simp [GetMetaVersion, h], fun v hv hne => ?_,
    fun pl hp hv => by simp [GetMetaVersion, hp, hv],
    fun pl hp hv => by simp [GetMetaVersion, hp, hv],
    fun pl s hp hv => by simp [GetMetaVersion, hp, hv],
    fun pl v hp hv hnull hstr => ?_⟩
  · cases v with
    | map es => exact absurd rfl (hne es)
    | str s => simp [GetMetaVersion, hv]
    | int n => simp [GetMetaVersion, hv]
    | bool b => simp [GetMetaVersion, hv]
    | null => simp [GetMetaVersion, hv]
    | seq xs => simp [GetMetaVersion, hv]
  · cases v with
    | null => exact absurd rfl hnull
    | str s => exact absurd rfl (hstr s)
    | int n => simp [GetMetaVersion, hp, hv]
    | bool b => simp [GetMetaVersion, hp, hv]
    | map es => simp [GetMetaVersion, hp, hv]
    | seq xs => simp [GetMetaVersion, hp, hv]

/-- Witness for `GetMetaVersion_total` at a concrete metadata mapping
holding an integer version. -/
theorem GetMetaVersion_total_witness :
    GetMetaVersion [("plasma", Yaml.map [("version", Yaml.int 7)])] =
      goSprint (Yaml.int 7) :=
  (GetMetaVersion_total _).2.2.2.2.2 [("version", Yaml.int 7)] (Yaml.int 7)
    rfl rfl (fun h => Yaml.noConfusion h) (fun _ h => Yaml.noConfusion h)

theorem topVisit_succ (adj : List (String × List String)) (fuel : Nat)
    (n : String) (gray out : List String) :
    topVisit adj (fuel + 1) n gray out =
      if n ∈ out then some out
      else if n ∈ gray then none
      else
        match topFold adj fuel (n :: gray) (depGet adj n) (some out) with
        | none => none
        | some out2 => some (out2 ++ [n]) := rfl

theorem topFold_none (adj : List (String × List String)) (fuel : Nat)
    (gray : List String) (ms : List String) :
    topFold adj fuel gray ms none = none := by
  induction ms with
  | nil => rfl
  | cons m rest ih => simpa [topFold] using ih

theorem precedes_mem_left {l : List String} {a b : String}
    (h : precedes l a b) : a ∈ l := by
  obtain ⟨i, j, _, ha, _⟩ := h
  exact ha ▸ List.get_mem l i.val i.isLt

theorem precedes_iff_get? {l : List String} {a b : String} :
    precedes l a b ↔ ∃ i j : Nat, i < j ∧ l.get? i = some a ∧ l.get? j = some b := by
  constructor
  · rintro ⟨i, j, hij, ha, hb⟩
    exact ⟨i.val, j.val, hij, by rw [List.get?_eq_get i.isLt, ha],
      by rw [List.get?_eq_get j.isLt, hb]⟩
  · rintro ⟨i, j, hij, ha, hb⟩
    have hj : j < l.length := List.get?_eq_some.mp hb |>.1
    have hi : i < l.length := List.get?_eq_some.mp ha |>.1
    refine ⟨⟨i, hi⟩, ⟨j, hj⟩, hij, ?_, ?_⟩
    · have := List.get?_eq_get hi
      rw [this] at ha
      exact Option.some.inj ha
    · have := List.get?_eq_get hj
      rw [this] at hb
      exact Option.some.inj hb

theorem precedes_append_left {l : List String} {a b : String}
    (l2 : List String) (h : precedes l a b) : precedes (l ++ l2) a b := by
  rw [precedes_iff_get?] at h ⊢
  obtain ⟨i, j, hij, ha, hb⟩ := h
  have hj : j < l.length := List.get?_eq_some.mp hb |>.1
  have hi : i < l.length := List.get?_eq_some.mp ha |>.1
  exact ⟨i, j, hij, by rw [List.get?_append hi, ha], by rw [List.get?_append hj, hb]⟩

theorem precedes_append_last {l : List String} {b : String}
    (n : String) (h : b ∈ l) : precedes (l ++ [n]) b n := by
  rw [precedes_iff_get?]
  obtain ⟨i, hget⟩ := List.mem_iff_get.mp h
  refine ⟨i.val, l.length, i.isLt, ?_, List.get?_concat_length l n⟩
  rw [List.get?_append i.isLt, List.get?_eq_get i.isLt]
  exact congrArg some hget

theorem precedes_reverse {l : List String} {a b : String}
    (h : precedes l a b) : precedes l.reverse b a := by
  rw [precedes_iff_get?] at h ⊢
  obtain ⟨i, j, hij, ha, hb⟩ := h
  have hj : j < l.length := List.get?_eq_some.mp hb |>.1
  have hi : i < l.length := List.get?_eq_some.mp ha |>.1
  refine ⟨l.length - 1 - j, l.length - 1 - i, by omega, ?_, ?_⟩
  · rw [List.get?_reverse (by omega)]
    have : l.length - 1 - (l.length - 1 - j) = j := by omega
    rw [this, hb]
  · rw [List.get?_reverse (by omega)]
    have : l.length - 1 - (l.length - 1 - i) = i := by omega
    rw [this, ha]

/-! ### Association-map lemmas -/
theorem alookup_amSet {α : Type _} (m : List (String × α)) (k : String)
    (v : α) (j : String) :
    alookup (amSet m k v) j = if k = j then some v else alookup m j := by
  induction m with
  | nil => simp [amSet, alookup]
  | cons p rest ih =>
    obtain ⟨k2, v2⟩ := p
    by_cases h2 : k2 = k
    · subst h2
      by_cases h : k2 = j
      · simp [amSet, alookup, h]
      · simp [amSet, alookup, h]
    · by_cases h : k2 = j
      · subst h
        have : ¬ k = k2 := fun hc => h2 hc.symm
        simp [amSet, alookup, h2, this]
      · simp [amSet, alookup, h2, h, ih]

theorem depGet_depAdd (m : List (String × List String)) (key mem j : String) :
    depGet (depAdd m key mem) j =
      if key = j then okSet (depGet m key) mem else depGet m j := by
  by_cases h : key = j
  · simp [depGet, depAdd, alookup_amSet, h]
  · simp [depGet, depAdd, alookup_amSet, h]

theorem alookup_append_new {α : Type _} (m : List (String × α)) (k : String)
    (v : α) (j : String) (hl : alookup m k = none) :
    alookup (m ++ [(k, v)]) j = if k = j then some v else alookup m j := by
  induction m with
  | nil => simp [alookup]
  | cons p rest ih =>
    obtain ⟨k2, v2⟩ := p
    simp only [alookup, List.cons_append] at hl ⊢
    by_cases h2 : k2 = k
    · simp [h2] at hl
    · simp only [if_neg h2] at hl
      by_cases h3 : k2 = j
      · subst h3
        have : ¬ k = k2 := fun hc => h2 hc.symm
        simp [this]
      · simp only [if_neg h3]
        exact ih hl

theorem depGet_depEnsure (m : List (String × List String)) (k j : String) :
    depGet (depEnsure m k) j = depGet m j := by
  unfold depEnsure
  cases hl : alookup m k with
  | some v => rfl
  | none =>
    unfold depGet
    rw [alookup_append_new m k [] j hl]
    by_cases h : k = j
    · subst h
      rw [hl]
      simp
    · rw [if_neg h]

theorem mem_okSet {l : List String} {k x : String} :
    x ∈ okSet l k ↔ x ∈ l ∨ x = k := by
  unfold okSet
  by_cases h : k ∈ l
  · simp only [if_pos h]
    constructor
    · exact Or.inl
    · rintro (hx | rfl)
      · exact hx
      · exact h
  · simp [if_neg h]

theorem mirror_depAdd {rm rbm : List (String × List String)}
    (c n : String) (h : Mirror rm rbm) :
    Mirror (depAdd rm c n) (depAdd rbm n c) := by
  intro a b
  rw [depGet_depAdd, depGet_depAdd]
  by_cases hb : c = b
  · subst hb
    by_cases ha : n = a
    · subst ha
      simp [mem_okSet]
    · rw [if_pos rfl, if_neg ha, mem_okSet]
      constructor
      · rintro (hx | rfl)
        · exact (h a c).mp hx
        · exact absurd rfl ha
      · intro hx
        exact Or.inl ((h a c).mpr hx)
  · by_cases ha : n = a
    · subst ha
      rw [if_neg hb, if_pos rfl, mem_okSet]
      constructor
      · intro hx
        exact Or.inl ((h n b).mp hx)
      · rintro (hx | rfl)
        · exact (h n b).mpr hx
        · exact absurd rfl hb
    · rw [if_neg hb, if_neg ha]
      exact h a b

theorem mirror_processEntries {rm rbm : List (String × List String)}
    (c : String) (es : List (Option String)) (h : Mirror rm rbm) :
    Mirror (processEntries rm rbm c es).1 (processEntries rm rbm c es).2 := by
  induction es generalizing rm rbm with
  | nil => exact h
  | cons e rest ih =>
    cases e with
    | none => exact ih h
    | some n =>
      by_cases hn : n = ""
      · simp only [processEntries, if_pos hn]
        exact ih h
      · simp only [processEntries, if_neg hn]
        exact ih (mirror_depAdd c n h)

theorem mirror_depEnsure {rm rbm : List (String × List String)}
    (k : String) (h : Mirror rm rbm) : Mirror (depEnsure rm k) rbm := by
  intro a b
  rw [depGet_depEnsure]
  exact h a b

theorem mirrorS_processTaskFile {st : GraphState} (f : TaskFile)
    (h : MirrorS st) : MirrorS (processTaskFile st f) := by
  unfold processTaskFile
  by_cases he : f.entries = []
  · simpa [he] using h
  · by_cases hs : f.isSemanticDeps
    · simp only [if_neg he, if_pos hs]
      exact ⟨mirror_processEntries _ _ (mirror_depEnsure _ h.1), h.2⟩
    · simp only [if_neg he, if_neg hs]
      exact ⟨h.1, mirror_processEntries _ _ (mirror_depEnsure _ h.2)⟩

theorem mirrorS_foldl (files : List TaskFile) {st : GraphState}
    (h : MirrorS st) : MirrorS (files.foldl processTaskFile st) := by
  induction files generalizing st with
  | nil => exact h
  | cons f rest ih => exact ih (mirrorS_processTaskFile f h)

/-- Joint postcondition of `topVisit` and `topFold`: on success the
output extends the input with nodes off the current path, preserves
`GoodOut`, and contains the visited node(s). -/
theorem topDFS_spec (adj : List (String × List String)) :
    ∀ fuel : Nat,
      (∀ n gray out out2, topVisit adj fuel n gray out = some out2 →
        (∃ l, out2 = out ++ l ∧ ∀ x ∈ l, x ∉ gray) ∧
        (GoodOut adj out → GoodOut adj out2) ∧ n ∈ out2) ∧
      (∀ ms gray out out2, topFold adj fuel gray ms (some out) = some out2 →
        (∃ l, out2 = out ++ l ∧ ∀ x ∈ l, x ∉ gray) ∧
        (GoodOut adj out → GoodOut adj out2) ∧ ∀ m ∈ ms, m ∈ out2) := by
  intro fuel
  induction fuel with
  | zero =>
    have hP0 : ∀ n gray out out2, topVisit adj 0 n gray out = some out2 →
        (∃ l, out2 = out ++ l ∧ ∀ x ∈ l, x ∉ gray) ∧
        (GoodOut adj out → GoodOut adj out2) ∧ n ∈ out2 := by
      intro n gray out out2 h
      simp [topVisit] at h
    refine ⟨hP0, ?_⟩
    intro ms gray out out2 h
    cases ms with
    | nil =>
      simp only [topFold, List.foldl_nil, Option.some.injEq] at h
      subst h
      exact ⟨⟨[], by simp, by simp⟩, fun hg => hg, by simp⟩
    | cons m rest =>
      simp only [topFold, List.foldl_cons] at h
      rw [show (some out).bind (topVisit adj 0 m gray)
        = topVisit adj 0 m gray out from rfl] at h
      rw [show topVisit adj 0 m gray out = none from rfl] at h
      rw [show List.foldl (fun a m => a.bind (topVisit adj 0 m gray)) none rest
        = topFold adj 0 gray rest none from rfl, topFold_none] at h
      exact absurd h (by simp)
  | succ f ih =>
    have hP : ∀ n gray out out2, topVisit adj (f + 1) n gray out = some out2 →
        (∃ l, out2 = out ++ l ∧ ∀ x ∈ l, x ∉ gray) ∧
        (GoodOut adj out → GoodOut adj out2) ∧ n ∈ out2 := by
      intro n gray out out2 h
      rw [topVisit_succ] at h
      by_cases hout : n ∈ out
      · simp only [if_pos hout, Option.some.injEq] at h
        subst h
        exact ⟨⟨[], by simp, by simp⟩, fun hg => hg, hout⟩
      · by_cases hgray : n ∈ gray
        · simp [if_neg hout, if_pos hgray] at h
        · simp only [if_neg hout, if_neg hgray] at h
          cases hfold : topFold adj f (n :: gray) (depGet adj n) (some out) with
          | none => rw [hfold] at h; simp at h
          | some out3 =>
            rw [hfold] at h
            simp only [Option.some.injEq] at h
            subst h
            obtain ⟨⟨l3, hout3, hl3⟩, hgood3, hsub⟩ := ih.2 _ _ _ _ hfold
            refine ⟨⟨l3 ++ [n], by rw [hout3, List.append_assoc], ?_⟩, ?_, ?_⟩
            · intro x hx
              rcases List.mem_append.mp hx with hx | hx
              · have := hl3 x hx
                simp only [List.mem_cons, not_or] at this
                exact this.2
              · rw [List.mem_singleton.mp hx]
                exact hgray
            · intro hg
              have hg3 := hgood3 hg
              intro a ha b hb
              rcases List.mem_append.mp ha with ha | ha
              · exact precedes_append_left [n] (hg3 a ha b hb)
              · rw [List.mem_singleton.mp ha] at hb ⊢
                exact precedes_append_last n (hsub b hb)
            · exact List.mem_append_right out3 (List.mem_singleton.mpr rfl)
    refine ⟨hP, ?_⟩
    intro ms
    induction ms with
    | nil =>
      intro gray out out2 h
      simp only [topFold, List.foldl_nil, Option.some.injEq] at h
      subst h
      exact ⟨⟨[], by simp, by simp⟩, fun hg => hg, by simp⟩
    | cons m rest ihrest =>
      intro gray out out2 h
      simp only [topFold, List.foldl_cons] at h
      rw [show (some out).bind (topVisit adj (f + 1) m gray)
        = topVisit adj (f + 1) m gray out from rfl] at h
      cases hv : topVisit adj (f + 1) m gray out with
      | none =>
        rw [hv] at h
        rw [show List.foldl (fun a m => a.bind (topVisit adj (f + 1) m gray)) none rest
          = topFold adj (f + 1) gray rest none from rfl, topFold_none] at h
        exact absurd h (by simp)
      | some outm =>
        rw [hv] at h
        have h2 : topFold adj (f + 1) gray rest (some outm) = some out2 := h
        obtain ⟨⟨l1, houtm, hl1⟩, hgood1, hmem1⟩ := hP _ _ _ _ hv
        obtain ⟨⟨l2, hout2, hl2⟩, hgood2, hmem2⟩ := ihrest _ _ _ h2
        refine ⟨⟨l1 ++ l2, by rw [hout2, houtm, List.append_assoc], ?_⟩,
          fun hg => hgood2 (hgood1 hg), ?_⟩
        · intro x hx
          rcases List.mem_append.mp hx with hx | hx
          · exact hl1 x hx
          · exact hl2 x hx
        · intro x hx
          rcases List.mem_cons.mp hx with hx | hx
          · subst hx
            rw [hout2]
            exact List.mem_append_left l2 hmem1
          · exact hmem2 x hx

/-- On success `topSort` emits the root last and yields a `GoodOut`
order. -/
theorem topSort_spec {adj : List (String × List String)} {root : String}
    {order : List String} (h : topSort adj root = some order) :
    (∃ l, order = l ++ [root] ∧ root ∉ l) ∧ GoodOut adj order := by
  unfold topSort at h
  rw [show (graphNodes adj).length + 2 = ((graphNodes adj).length + 1) + 1
    from rfl] at h
  rw [topVisit_succ] at h
  simp only [List.not_mem_nil, if_false] at h
  cases hfold : topFold adj ((graphNodes adj).length + 1) [root]
      (depGet adj root) (some []) with
  | none => rw [hfold] at h; simp at h
  | some out3 =>
    rw [hfold] at h
    simp only [Option.some.injEq] at h
    subst h
    obtain ⟨⟨l3, hout3, hl3⟩, hgood3, hsub⟩ :=
      (topDFS_spec adj ((graphNodes adj).length + 1)).2 _ _ _ _ hfold
    simp only [List.nil_append] at hout3
    subst hout3
    refine ⟨⟨out3, rfl, fun hc => ?_⟩, ?_⟩
    · have := hl3 root hc
      simp at this
    · have hg3 : GoodOut adj out3 := hgood3 (by intro a ha; simp at ha)
      intro a ha b hb
      rcases List.mem_append.mp ha with ha | ha
      · exact precedes_append_left [root] (hg3 a ha b hb)
      · rw [List.mem_singleton.mp ha] at hb ⊢
        exact precedes_append_last root (hsub b hb)

/-- Destructuring of a successful `buildComponentsGraph` run. -/
theorem buildComponentsGraph_some {files : List TaskFile} {st : GraphState}
    (h : buildComponentsGraph files = some st) :
    ∃ order,
      topSort (platformStep
        (files.foldl processTaskFile ⟨[], [], [], [], []⟩)).requiredBy
        "platform" = some order ∧
      st = { platformStep (files.foldl processTaskFile ⟨[], [], [], [], []⟩)
              with topOrder := order.reverse } := by
  simp only [buildComponentsGraph] at h
  cases hts : topSort (platformStep
      (files.foldl processTaskFile ⟨[], [], [], [], []⟩)).requiredBy
      "platform" with
  | none => rw [hts] at h; simp at h
  | some order =>
    rw [hts] at h
    simp only [Option.some.injEq] at h
    exact ⟨order, rfl, h.symm⟩

theorem mirror_nil : Mirror [] [] := by
  intro a b
  simp [depGet, alookup]

/-- Node `platform` heads the sorted order after a successful construction. -/
theorem buildGraph_platform_head {files : List TaskFile} {st : GraphState}
    (h : buildComponentsGraph files = some st) :
    st.topOrder.head? = some "platform" := by
  obtain ⟨order, hts, hst⟩ := buildComponentsGraph_some h
  obtain ⟨⟨l, horder, hroot⟩, hgood⟩ := topSort_spec hts
  have htop : st.topOrder = order.reverse := by rw [hst]
  rw [htop, horder]
  simp

/-- C1 counterexample: a component whose `dependencies.yaml` has task
entries but contributes no role gets an empty `requires` entry, is
therefore neither a platform item nor reachable from `platform`, and is
missing from the sorted order: `u.l.k ∈ requires[v.l.k]` yet `u.l.k`
does not precede `v.l.k` (it does not appear in the order at all),
although construction succeeded. -/
theorem topOrder_counterexample :
    buildComponentsGraph filesC1 = some stC1 ∧
    "u.l.k" ∈ depGet stC1.requires "v.l.k" ∧
    "u.l.k" ∉ stC1.topOrder ∧
    ¬ precedes stC1.topOrder "u.l.k" "v.l.k" := by
  decide

/-- C7 counterexample: the synthetic root breaks bijectivity: after
construction `a.b.c ∈ requiredBy[platform]` but `platform` is in no
`requires` entry, so the semantic maps are not mutually inverse. -/
theorem bijectivity_counterexample :
    buildComponentsGraph filesC7 = some stC7 ∧
    "a.b.c" ∈ depGet stC7.requiredBy "platform" ∧
    "platform" ∉ depGet stC7.requires "a.b.c" := by
  decide

/-- C8 counterexample: with `u.a.b ∈ requires[v.a.b]` the sorted order is
`[platform, u.a.b, v.a.b]`: the dependency `u.a.b` comes before its
requirer `v.a.b`, not after it as the claim states. -/
theorem requires_after_counterexample :
    buildComponentsGraph filesC8 = some stC8 ∧
    "u.a.b" ∈ depGet stC8.requires "v.a.b" ∧
    "u.a.b" ∈ stC8.topOrder ∧ "v.a.b" ∈ stC8.topOrder ∧
    ¬ precedes stC8.topOrder "v.a.b" "u.a.b" := by
  decide

/-- C9 counterexample: the sort contract admits an output in which two
distinct equal-date items of the same variant swap their relative order,
so `SortTimeline` does not guarantee a stable relative order among
equal-date items of the same variant. -/
theorem sortTimeline_stability_counterexample :
    SortTimelineSpec "asc" [tlA, tlB] [tlB, tlA] ∧
    tlA ≠ tlB ∧ tlA.date = tlB.date ∧ tlA.isVars = tlB.isVars := by
  constructor
  · constructor
    · decide
    · decide
  · refine ⟨by decide, by decide, by decide⟩

/-- C9 (amended): every contract-compliant output of `SortTimeline` is
ordered by date (ascending for "asc", descending for "desc"), and among
equal-date items every `VariablesItem` precedes every `ComponentsItem`
in ascending order and follows it in descending order; the relative
order of equal-date items of the same variant is unspecified. -/
theorem sortTimeline_ordered (input output : List TItem) :
    (SortTimelineSpec "asc" input output →
      ∀ i j : Fin output.length, i.val < j.val →
        (output.get i).date ≤ (output.get j).date ∧
        ((output.get i).date = (output.get j).date →
          ¬((output.get i).isVars = false ∧ (output.get j).isVars = true))) ∧
    (SortTimelineSpec "desc" input output →
      ∀ i j : Fin output.length, i.val < j.val →
        (output.get j).date ≤ (output.get i).date ∧
        ((output.get i).date = (output.get j).date →
          ¬((output.get i).isVars = true ∧ (output.get j).isVars = false))) := by
  constructor
  · intro h i j hij
    have hrel := List.pairwise_iff_get.mp h.2 i j hij
    revert hrel
    generalize output.get i = gi
    generalize output.get j = gj
    intro hrel
    constructor
    · by_cases hne : gj.date ≠ gi.date
      · simp only [timelineLess, if_pos hne, if_pos rfl] at hrel
        have := of_decide_eq_false hrel
        omega
      · push_neg at hne
        omega
    · intro hdate hcontra
      obtain ⟨hci, hvj⟩ := hcontra
      have hne : ¬ gj.date ≠ gi.date := not_ne_iff.mpr hdate.symm
      simp only [timelineLess, if_neg hne] at hrel
      cases gi with
      | comps v c d cs =>
        cases gj with
        | comps _ _ _ _ => simp [TItem.isVars] at hvj
        | vars _ _ _ _ => simp at hrel
      | vars v c d vs => simp [TItem.isVars] at hci
  · intro h i j hij
    have hrel := List.pairwise_iff_get.mp h.2 i j hij
    revert hrel
    generalize output.get i = gi
    generalize output.get j = gj
    intro hrel
    constructor
    · by_cases hne : gj.date ≠ gi.date
      · have hdesc : ¬ ("desc" : String) = "asc" := by decide
        simp only [timelineLess, if_pos hne, if_neg hdesc] at hrel
        have := of_decide_eq_false hrel
        omega
      · push_neg at hne
        omega
    · intro hdate hcontra
      obtain ⟨hvi, hcj⟩ := hcontra
      have hne : ¬ gj.date ≠ gi.date := not_ne_iff.mpr hdate.symm
      simp only [timelineLess, if_neg hne] at hrel
      cases gi with
      | vars v c d vs =>
        cases gj with
        | vars _ _ _ _ => simp [TItem.isVars] at hcj
        | comps _ _ _ _ => simp at hrel
      | comps v c d cs => simp [TItem.isVars] at hvi

/-- Witness for `sortTimeline_ordered` on a concrete two-item timeline. -/
theorem sortTimeline_ordered_witness :
    (([tlW, tlW2] : List TItem).get ⟨0, by decide⟩).date ≤
      (([tlW, tlW2] : List TItem).get ⟨1, by decide⟩).date :=
  (((sortTimeline_ordered [tlW2, tlW] [tlW, tlW2]).1
    ⟨by decide, by decide⟩) ⟨0, by decide⟩ ⟨1, by decide⟩ (by decide)).1

/-- C5: two distinct commits in the scan window share a 13-character
hash prefix, yet `collectComponentsCommits` succeeds: the callback's
duplicate-hash error is discarded by `_ = cIter.ForEach(...)`, so the
function silently returns the (truncated) groups map and a nil error
instead of failing. -/
theorem duplicateHash_swallowed :
    cexCommits.map GCommit.hash = ["aaaaaaaaaaaaa1", "aaaaaaaaaaaaa2"] ∧
    ("aaaaaaaaaaaaa1" : String) ≠ "aaaaaaaaaaaaa2" ∧
    take13 "aaaaaaaaaaaaa1" = take13 "aaaaaaaaaaaaa2" ∧
    collectComponentsCommits "bumper" cexCommits none =
      Except.ok
        ([("aaaaaaaaaaaaa1",
            ⟨"head", "aaaaaaaaaaaaa1", ["aaaaaaaaaaaaa1"], 10⟩)],
         [("aaaaaaaaaaaaa", ⟨"aaaaaaaaaaaaa1", "head"⟩)]) :=
  ⟨rfl, by decide, rfl, rfl⟩

theorem planLoop_stop (env : String → Except String GoStr)
    (cvm : List (String × GoStr)) :
    ∀ keys updateMap sortList stop res,
      ((∃ k ∈ keys, env k = Except.ok ([] : GoStr)) ∨ stop = true) →
      planLoop env cvm keys updateMap sortList stop = Except.ok res →
      res.2.2 = true := by
  intro keys
  induction keys with
  | nil =>
    intro updateMap sortList stop res hw h
    rcases hw with ⟨k, hk, _⟩ | hstop
    · exact absurd hk (List.not_mem_nil k)
    · simp only [planLoop, Except.ok.injEq] at h
      subst h
      exact hstop
  | cons k rest ih =>
    intro updateMap sortList stop res hw h
    simp only [planLoop] at h
    cases henv : env k with
    | error e => rw [getBaseVersion, henv] at h; exact absurd h (by simp)
    | ok v =>
      rw [getBaseVersion, henv] at h
      simp only at h
      have hnext : ((∃ k2 ∈ rest, env k2 = Except.ok ([] : GoStr)) ∨
          (if v = [] then true else stop) = true) := by
        rcases hw with ⟨k2, hk2, hv2⟩ | hstop
        · rcases List.mem_cons.mp hk2 with rfl | hk2
          · right
            rw [henv] at hv2
            simp only [Except.ok.injEq] at hv2
            simp [hv2]
          · exact Or.inl ⟨k2, hk2, hv2⟩
        · right
          rw [hstop]
          simp
      by_cases hskip : baseOf v = cvmGet cvm k
      · rw [if_pos hskip] at h
        exact ih _ _ _ _ hnext h
      · rw [if_neg hskip] at h
        exact ih _ _ _ _ hnext h

theorem planLoop_ok (env : String → Except String GoStr)
    (cvm : List (String × GoStr)) :
    ∀ keys updateMap sortList stop,
      (∀ k ∈ keys, ∃ v, env k = Except.ok v) →
      ∃ res, planLoop env cvm keys updateMap sortList stop = Except.ok res := by
  intro keys
  induction keys with
  | nil =>
    intro updateMap sortList stop _
    exact ⟨(updateMap, sortList, stop), rfl⟩
  | cons k rest ih =>
    intro updateMap sortList stop hall
    obtain ⟨v, hv⟩ := hall k (List.mem_cons_self k rest)
    simp only [planLoop, getBaseVersion, hv]
    have hrest : ∀ k2 ∈ rest, ∃ v2, env k2 = Except.ok v2 :=
      fun k2 hk2 => hall k2 (List.mem_cons_of_mem k hk2)
    by_cases hskip : baseOf v = cvmGet cvm k
    · rw [if_pos hskip]
      exact ih _ _ _ hrest
    · rw [if_neg hskip]
      exact ih _ _ _ hrest

/-- C6: if any component selected for propagation has an empty current
version, `updateComponents` fails the whole run: the failure is
collected during the planning loop and an error is returned at its end,
and `UpdateVersion` is never called; when every version read succeeds,
the emitted error is exactly the single deferred empty-version error. -/
theorem updateComponents_empty_version_fails
    (env : String → Except String GoStr) (cvm : List (String × GoStr))
    (toSyncKeys : List String) (dryRun : Bool)
    (hempty : ∃ k ∈ toSyncKeys, env k = Except.ok ([] : GoStr)) :
    (updateComponents env cvm toSyncKeys dryRun).writes = [] ∧
    (updateComponents env cvm toSyncKeys dryRun).err.isSome ∧
    ((∀ k ∈ toSyncKeys, ∃ v, env k = Except.ok v) →
      (updateComponents env cvm toSyncKeys dryRun).err =
        some "empty version has been detected, please check log") := by
  unfold updateComponents
  cases hplan : planLoop env cvm toSyncKeys [] [] false with
  | error e => exact ⟨rfl, rfl, fun hall => by
      obtain ⟨res, hres⟩ := planLoop_ok env cvm toSyncKeys [] [] false hall
      rw [hplan] at hres
      exact absurd hres (by simp)⟩
  | ok res =>
    obtain ⟨updateMap, sortList, stop⟩ := res
    have hstop : stop = true :=
      planLoop_stop env cvm toSyncKeys [] [] false _ (Or.inl hempty) hplan
    subst hstop
    exact ⟨rfl, rfl, fun _ => rfl⟩

/-- Witness for `updateComponents_empty_version_fails` at a concrete
single-component environment whose version is empty. -/
theorem updateComponents_empty_version_fails_witness :
    (updateComponents envC6 [] ["a.b.c"] false).writes = [] ∧
    (updateComponents envC6 [] ["a.b.c"] false).err.isSome ∧
    ((∀ k ∈ ["a.b.c"], ∃ v, envC6 k = Except.ok v) →
      (updateComponents envC6 [] ["a.b.c"] false).err =
        some "empty version has been detected, please check log") :=
  updateComponents_empty_version_fails envC6 []
    ["a.b.c"] false ⟨"a.b.c", List.mem_cons_self _ _, rfl⟩

/-- C4 counterexample: two packages contain the component with base
versions equal to the build's full version, the domain does not contain
it.  `highest` is computed from the whole components map (always the
domain), so the component is unset from both packages and NO namespace
retains it — not "exactly one". -/
theorem conflict_resolution_counterexample :
    resolveComponent envC4 ["p1", "p2", "domain"] cmC4 "c.a.b" =
      Except.ok [("p1", []), ("p2", []), ("domain", [])] ∧
    ((cmC4.filter (fun p => decide ("c.a.b" ∈ p.2))).map Prod.fst).length = 2 ∧
    (([("p1", []), ("p2", []), ("domain", [])] : NsMaps).filter
      (fun p => decide ("c.a.b" ∈ p.2))).length = 0 :=
  ⟨rfl, rfl, rfl⟩

theorem nsGet_nsUnset (cm : NsMaps) (ns comp ns2 : String) :
    nsGet (nsUnset cm ns comp) ns2 =
      if ns2 = ns then (nsGet cm ns2).filter (fun x => decide (x ≠ comp))
      else nsGet cm ns2 := by
  induction cm with
  | nil =>
    by_cases h : ns2 = ns
    · simp [nsGet, nsUnset, alookup, h]
    · simp [nsGet, nsUnset, alookup, h]
  | cons p rest ih =>
    obtain ⟨k, v⟩ := p
    by_cases hns : k = ns
    · subst hns
      simp only [nsUnset, if_pos rfl]
      by_cases hk : k = ns2
      · subst hk
        simp [nsGet, alookup]
      · simp only [nsGet, alookup, if_neg hk]
        exact ih
    · simp only [nsUnset, if_neg hns]
      by_cases hk : k = ns2
      · subst hk
        have : ¬ k = ns := hns
        simp [nsGet, alookup, fun h : k = ns => hns h]
      · simp only [nsGet, alookup, if_neg hk]
        exact ih

theorem alookup_nsUnset_isSome (cm : NsMaps) (ns comp ns2 : String) :
    (alookup (nsUnset cm ns comp) ns2).isSome = (alookup cm ns2).isSome := by
  induction cm with
  | nil => rfl
  | cons p rest ih =>
    obtain ⟨k, v⟩ := p
    by_cases hns : k = ns
    · subst hns
      simp only [nsUnset, if_pos rfl]
      by_cases hk : k = ns2
      · simp [alookup, hk]
      · simp only [alookup, if_neg hk]
        exact ih
    · simp only [nsUnset, if_neg hns]
      by_cases hk : k = ns2
      · simp [alookup, hk]
      · simp only [alookup, if_neg hk]
        exact ih

theorem baseFilter_all_same (env : ConflictEnv) (bv : GoStr) (comp : String) :
    ∀ nss cm, (∀ ns ∈ nss, ∃ v, env.nsVersion ns comp = Except.ok v ∧
      baseOf v = bv) →
    baseFilter env bv comp nss cm = Except.ok (cm, nss) := by
  intro nss
  induction nss with
  | nil => intro cm _; rfl
  | cons ns rest ih =>
    intro cm hall
    obtain ⟨v, hv, hbase⟩ := hall ns (List.mem_cons_self ns rest)
    simp only [baseFilter, hv]
    rw [if_neg (not_ne_iff.mpr hbase)]
    rw [ih cm (fun ns2 h2 => hall ns2 (List.mem_cons_of_mem ns h2))]

theorem unsetStep_presence (comp highest : String) (acc : NsMaps)
    (ns ns2 : String) :
    (alookup (unsetStep comp highest acc ns) ns2).isSome =
      (alookup acc ns2).isSome := by
  unfold unsetStep
  by_cases h1 : ns = highest
  · rw [if_pos h1]
  · rw [if_neg h1]
    by_cases h2 : (alookup acc ns).isSome
    · rw [if_pos h2, alookup_nsUnset_isSome]
    · rw [if_neg h2]

theorem unsetFold_presence (comp highest : String) :
    ∀ (nss : List String) (acc : NsMaps) (ns2 : String),
      (alookup (nss.foldl (unsetStep comp highest) acc) ns2).isSome =
      (alookup acc ns2).isSome := by
  intro nss
  induction nss with
  | nil => intro acc ns2; rfl
  | cons n rest ih =>
    intro acc ns2
    simp only [List.foldl_cons]
    rw [ih, unsetStep_presence]

theorem unsetStep_sub (comp highest : String) (acc : NsMaps) (n ns : String)
    {x : String} (hx : x ∈ nsGet (unsetStep comp highest acc n) ns) :
    x ∈ nsGet acc ns := by
  unfold unsetStep at hx
  by_cases h1 : n = highest
  · rwa [if_pos h1] at hx
  · rw [if_neg h1] at hx
    by_cases h2 : (alookup acc n).isSome
    · rw [if_pos h2, nsGet_nsUnset] at hx
      by_cases h3 : ns = n
      · rw [if_pos h3] at hx
        exact (List.mem_filter.mp hx).1
      · rwa [if_neg h3] at hx
    · rwa [if_neg h2] at hx

theorem unsetFold_sub (comp highest : String) :
    ∀ (nss : List String) (acc : NsMaps) (ns : String) {x : String},
      x ∈ nsGet (nss.foldl (unsetStep comp highest) acc) ns → x ∈ nsGet acc ns := by
  intro nss
  induction nss with
  | nil => intro acc ns x hx; exact hx
  | cons n rest ih =>
    intro acc ns x hx
    simp only [List.foldl_cons] at hx
    exact unsetStep_sub comp highest acc n ns (ih _ _ hx)

theorem unsetFold_unsets (comp highest : String) :
    ∀ (nss : List String) (acc : NsMaps) (ns : String),
      ns ∈ nss → ns ≠ highest → (alookup acc ns).isSome = true →
      comp ∉ nsGet (nss.foldl (unsetStep comp highest) acc) ns := by
  intro nss
  induction nss with
  | nil => intro acc ns h; exact absurd h (List.not_mem_nil ns)
  | cons n rest ih =>
    intro acc ns hmem hne hpres
    simp only [List.foldl_cons]
    rcases List.mem_cons.mp hmem with rfl | hmem2
    · intro hc
      have hc2 := unsetFold_sub comp highest rest _ ns hc
      unfold unsetStep at hc2
      rw [if_neg hne, if_pos hpres, nsGet_nsUnset, if_pos rfl] at hc2
      have := (List.mem_filter.mp hc2).2
      simp at this
    · exact ih _ ns hmem2 hne (by rw [unsetStep_presence]; exact hpres)

theorem unsetFold_highest (comp highest : String) :
    ∀ (nss : List String) (acc : NsMaps),
      nsGet (nss.foldl (unsetStep comp highest) acc) highest =
      nsGet acc highest := by
  intro nss
  induction nss with
  | nil => intro acc; rfl
  | cons n rest ih =>
    intro acc
    simp only [List.foldl_cons]
    rw [ih]
    unfold unsetStep
    by_cases h1 : n = highest
    · rw [if_pos h1]
    · rw [if_neg h1]
      by_cases h2 : (alookup acc n).isSome
      · rw [if_pos h2, nsGet_nsUnset, if_neg (fun hc : highest = n => h1 hc.symm)]
      · rw [if_neg h2]

theorem alookup_isSome_mem {α : Type _} (m : List (String × α)) (k : String)
    (h : (alookup m k).isSome = true) : ∃ v, (k, v) ∈ m := by
  induction m with
  | nil => simp [alookup] at h
  | cons p rest ih =>
    obtain ⟨k2, v2⟩ := p
    by_cases hk : k2 = k
    · subst hk
      exact ⟨v2, List.mem_cons_self _ _⟩
    · rw [alookup, if_neg hk] at h
      obtain ⟨v, hv⟩ := ih h
      exact ⟨v, List.mem_cons_of_mem _ hv⟩

/-- C4 (amended): when two or more namespaces contain a component and
all of them have base version equal to the build's full version, the
code keeps the component only in `highest` — the last priority-order
namespace present in the components map, i.e. the domain — and unsets it
everywhere else; the domain retains the component if and only if it
contained it, so either exactly the domain retains it or no namespace
does. -/
theorem resolveComponent_domain_retains (env : ConflictEnv)
    (po : List String) (cm : NsMaps) (comp : String) (cm2 : NsMaps)
    (bv : GoStr)
    (hres : resolveComponent env po cm comp = Except.ok cm2)
    (hbv : env.buildVersion comp = Except.ok bv)
    (hconf : 2 ≤ ((cm.filter (fun p => decide (comp ∈ p.2))).map Prod.fst).length)
    (hsame : ∀ ns ∈ (cm.filter (fun p => decide (comp ∈ p.2))).map Prod.fst,
      ∃ v, env.nsVersion ns comp = Except.ok v ∧ baseOf v = bv)
    (hkeys : ∀ p ∈ cm, p.1 ∈ po)
    (hlast : po.getLast? = some "domain")
    (hdom : (alookup cm "domain").isSome = true) :
    (∀ ns, ns ≠ "domain" → comp ∉ nsGet cm2 ns) ∧
    (comp ∈ nsGet cm2 "domain" ↔ comp ∈ nsGet cm "domain") := by
  unfold resolveComponent at hres
  rw [if_neg (by omega), hbv] at hres
  have hres2 : (match baseFilter env bv comp
      ((cm.filter (fun p => decide (comp ∈ p.2))).map Prod.fst) cm with
    | Except.error e => Except.error e
    | Except.ok (cm2x, same) =>
      if 1 < same.length then
        Except.ok (po.reverse.foldl (unsetStep comp
          ((po.reverse.find? (fun ns => (alookup cm2x ns).isSome)).getD ""))
          cm2x)
      else Except.ok cm2x) = Except.ok cm2 := hres
  rw [baseFilter_all_same env bv comp _ cm hsame] at hres2
  have hres3 : (if 1 <
      ((cm.filter (fun p => decide (comp ∈ p.2))).map Prod.fst).length then
        Except.ok (po.reverse.foldl (unsetStep comp
          ((po.reverse.find? (fun ns => (alookup cm ns).isSome)).getD "")) cm)
      else Except.ok cm) = Except.ok cm2 := hres2
  rw [if_pos (by omega)] at hres3
  obtain ⟨t, ht⟩ : ∃ t, po.reverse = "domain" :: t := by
    have hh : po.reverse.head? = some "domain" := by
      rw [List.head?_reverse, hlast]
    cases hpr : po.reverse with
    | nil => rw [hpr] at hh; simp at hh
    | cons a t2 =>
      rw [hpr] at hh
      simp only [List.head?_cons, Option.some.injEq] at hh
      exact ⟨t2, by rw [hh]⟩
  rw [ht, List.find?_cons_of_pos _ (by simpa using hdom)] at hres3
  simp only [Option.getD_some, Except.ok.injEq] at hres3
  rw [← hres3]
  constructor
  · intro ns hne
    by_cases hp : (alookup cm ns).isSome
    · obtain ⟨v, hv⟩ := alookup_isSome_mem cm ns hp
      have hmem : ns ∈ po.reverse := List.mem_reverse.mpr (hkeys (ns, v) hv)
      rw [ht] at hmem
      exact unsetFold_unsets comp "domain" _ cm ns hmem hne hp
    · intro hc
      have := unsetFold_sub comp "domain" _ cm ns hc
      simp only [nsGet, Option.not_isSome_iff_eq_none.mp hp,
        Option.getD_none] at this
      exact absurd this (List.not_mem_nil comp)
  · rw [unsetFold_highest]

/-- Witness for `resolveComponent_domain_retains`: with a package and
the domain both holding the component at the build's base version, the
package loses it and the domain keeps it. -/
theorem resolveComponent_domain_retains_witness :
    ("c.a.b" ∉ nsGet [("p1", []), ("domain", ["c.a.b"])] "p1") ∧
    ("c.a.b" ∈ nsGet [("p1", []), ("domain", ["c.a.b"])] "domain" ↔
      "c.a.b" ∈ nsGet cmC4w "domain") := by
  have h := resolveComponent_domain_retains envC4w ["p1", "domain"] cmC4w
    "c.a.b" [("p1", []), ("domain", ["c.a.b"])] ['v'] rfl rfl (by decide)
    (fun ns _ => ⟨['v'], rfl, rfl⟩) (by decide) (by decide) (by decide)
  exact ⟨h.1 "p1" (by decide), h.2⟩

theorem step_refl (P : List String) (idx : Nat) (ver : String)
    (st : WalkState) : Step P idx ver st st :=
  ⟨fun _ h => h, rfl, ⟨[], by simp, by simp⟩, fun _ _ => rfl,
   fun _ _ h => Or.inl h⟩

theorem step_trans {P : List String} {idx : Nat} {ver : String}
    {a b c : WalkState} (h1 : Step P idx ver a b) (h2 : Step P idx ver b c) :
    Step P idx ver a c := by
  obtain ⟨s1, d1, ⟨n1, e1, he1⟩, c1, p1⟩ := h1
  obtain ⟨s2, d2, ⟨n2, e2, he2⟩, c2, p2⟩ := h2
  refine ⟨fun k hk => s2 k (s1 k hk), d2.trans d1, ⟨n1 ++ n2, ?_, ?_⟩, ?_, ?_⟩
  · rw [e2, e1, List.append_assoc]
  · intro e he
    rcases List.mem_append.mp he with he | he
    · obtain ⟨hi, hv, hp, hm⟩ := he1 e he
      exact ⟨hi, hv, hp, s2 _ hm⟩
    · exact he2 e he
  · intro k hk
    rw [c2 k hk, c1 k hk]
  · intro k v hv
    rcases p2 k v hv with hv2 | ⟨hveq, hkp, hkm, hev⟩
    · rcases p1 k v hv2 with hv1 | ⟨hveq, hkp, hkm, hev⟩
      · exact Or.inl hv1
      · exact Or.inr ⟨hveq, hkp, s2 _ hkm,
          by rw [e2]; exact List.mem_append_left _ hev⟩
    · exact Or.inr ⟨hveq, hkp, hkm, hev⟩

theorem step_processed_sub {P : List String} {idx : Nat} {ver : String}
    {a b : WalkState} (h : Step P idx ver a b) (hP : ∀ k ∈ P, k ∈ a.processed) :
    ∀ k ∈ P, k ∈ b.processed :=
  fun k hk => h.1 k (hP k hk)

theorem mem_okSet_self (l : List String) (k : String) : k ∈ okSet l k := by
  rw [mem_okSet]
  exact Or.inr rfl

theorem mem_okSet_of_mem {l : List String} {x : String} (k : String)
    (h : x ∈ l) : x ∈ okSet l k := by
  rw [mem_okSet]
  exact Or.inl h

/-- One body element of the shared dependents loop satisfies `Step`. -/
theorem depsLoop_step (env : WalkEnv) (idx : Nat) (ver : String)
    (P : List String) :
    ∀ (deps : List String) (st : WalkState), (∀ k ∈ P, k ∈ st.processed) →
      Step P idx ver st (depsLoop env idx ver deps st) := by
  intro deps
  induction deps with
  | nil => intro st _; exact step_refl P idx ver st
  | cons dep rest ih =>
    intro st hP
    have hfold : depsLoop env idx ver (dep :: rest) st =
        depsLoop env idx ver rest
          ((fun st dep =>
            match compGet env.componentsMap dep with
            | none => st
            | some depComponent =>
              if dep ∈ st.processed then st
              else
                let st2 := { st with processed := okSet st.processed dep }
                if IsUpdatableKind depComponent.kind then
                  { st2 with toSync := amSet st2.toSync dep depComponent,
                             cvm := amSet st2.cvm dep ver,
                             events := st2.events ++ [(idx, dep, ver)] }
                else st2) st dep) := by
      simp only [depsLoop, List.foldl_cons]
    rw [hfold]
    have hbody : ∀ st, (∀ k ∈ P, k ∈ st.processed) →
        Step P idx ver st
          ((fun st dep =>
            match compGet env.componentsMap dep with
            | none => st
            | some depComponent =>
              if dep ∈ st.processed then st
              else
                let st2 := { st with processed := okSet st.processed dep }
                if IsUpdatableKind depComponent.kind then
                  { st2 with toSync := amSet st2.toSync dep depComponent,
                             cvm := amSet st2.cvm dep ver,
                             events := st2.events ++ [(idx, dep, ver)] }
                else st2) st dep) := by
      intro st hP2
      cases hc : compGet env.componentsMap dep with
      | none => simp only [hc]; exact step_refl P idx ver st
      | some dc =>
        simp only [hc]
        by_cases hproc : dep ∈ st.processed
        · rw [if_pos hproc]
          exact step_refl P idx ver st
        · rw [if_neg hproc]
          by_cases hk : IsUpdatableKind dc.kind
          · rw [if_pos hk]
            refine ⟨fun k hkm => mem_okSet_of_mem dep hkm, rfl,
              ⟨[(idx, dep, ver)], rfl, ?_⟩, ?_, ?_⟩
            · intro e he
              rw [List.mem_singleton.mp he]
              exact ⟨rfl, rfl, fun hc2 => hproc (hP2 dep hc2),
                mem_okSet_self _ _⟩
            · intro k hkP
              have hne : dep ≠ k := fun hc2 => hproc (by
                rw [hc2]; exact hP2 k hkP)
              simp only [alookup_amSet, if_neg hne]
            · intro k v hv
              simp only [alookup_amSet] at hv
              by_cases hd : dep = k
              · rw [if_pos hd] at hv
                subst hd
                refine Or.inr ⟨(Option.some.inj hv).symm,
                  fun hc2 => hproc (hP2 dep hc2), mem_okSet_self _ _, ?_⟩
                exact List.mem_append_right _ (List.mem_singleton.mpr rfl)
              · rw [if_neg hd] at hv
                exact Or.inl hv
          · rw [if_neg hk]
            exact ⟨fun k hkm => mem_okSet_of_mem dep hkm, rfl,
              ⟨[], by simp, by simp⟩, fun _ _ => rfl, fun _ _ h => Or.inl h⟩
    have h1 := hbody st hP
    exact step_trans h1 (ih _ (step_processed_sub h1 hP))

/-- The per-member loop of a ComponentsItem satisfies `Step` and marks
every processed member. -/
theorem compsProcessLoop_step (env : WalkEnv) (idx : Nat) (ver : String)
    (members : List SComponent) (P : List String) :
    ∀ (toProcess : List String) (st st2 : WalkState),
      (∀ k ∈ P, k ∈ st.processed) →
      compsProcessLoop env idx ver members toProcess st = Except.ok st2 →
      Step P idx ver st st2 ∧ ∀ k ∈ toProcess, k ∈ st2.processed := by
  intro toProcess
  induction toProcess with
  | nil =>
    intro st st2 hP h
    simp only [compsProcessLoop, Except.ok.injEq] at h
    subst h
    exact ⟨step_refl P idx ver st, by simp⟩
  | cons key rest ih =>
    intro st st2 hP h
    simp only [compsProcessLoop] at h
    cases hc : compGet members key with
    | none => rw [hc] at h; exact absurd h (by simp)
    | some c =>
      rw [hc] at h
      simp only at h
      set stMid := { st with processed := okSet st.processed key } with hmid
      have hstep1 : Step P idx ver st stMid :=
        ⟨fun k hkm => mem_okSet_of_mem key hkm, rfl, ⟨[], by simp, by simp⟩,
         fun _ _ => rfl, fun _ _ hv => Or.inl hv⟩
      have hPmid : ∀ k ∈ P, k ∈ stMid.processed :=
        step_processed_sub hstep1 hP
      set deps0 := GetRequiredByComponents env.requiredBy c.name with hd0
      set deps := (if env.filterByUsage then
          deps0.filter (fun dc => decide (dc ∈ env.usedComponents))
        else deps0) with hd
      have hstep2 : Step P idx ver stMid (depsLoop env idx ver deps stMid) :=
        depsLoop_step env idx ver P deps stMid hPmid
      have hPdl : ∀ k ∈ P, k ∈ (depsLoop env idx ver deps stMid).processed :=
        step_processed_sub hstep2 hPmid
      obtain ⟨hstep3, hmark⟩ := ih _ _ hPdl h
      refine ⟨step_trans hstep1 (step_trans hstep2 hstep3), ?_⟩
      intro k hk
      rcases List.mem_cons.mp hk with rfl | hk2
      · have : k ∈ stMid.processed := mem_okSet_self _ _
        exact hstep3.1 k (hstep2.1 k this)
      · exact hmark k hk2

theorem alookup_amUnset {α : Type _} (m : List (String × α)) (k j : String) :
    alookup (amUnset m k) j = if k = j then none else alookup m j := by
  induction m with
  | nil => simp [amUnset, alookup]
  | cons p rest ih =>
    obtain ⟨k2, v2⟩ := p
    by_cases h2 : k2 = k
    · subst h2
      have e : amUnset ((k2, v2) :: rest) k2 = amUnset rest k2 := by
        simp [amUnset]
      rw [e, ih]
      by_cases hj : k2 = j
      · rw [if_pos hj, if_pos hj]
      · rw [if_neg hj, if_neg hj, alookup, if_neg hj]
    · have e : amUnset ((k2, v2) :: rest) k = (k2, v2) :: amUnset rest k := by
        simp [amUnset, h2]
      rw [e]
      by_cases hj : k2 = j
      · rw [alookup, if_pos hj,
          if_neg (show ¬ k = j from fun hc => h2 (by rw [hj, hc])),
          alookup, if_pos hj]
      · rw [alookup, if_neg hj, ih,
          show alookup ((k2, v2) :: rest) j = alookup rest j from by
            rw [alookup, if_neg hj]]

theorem unsetLoop_fields :
    ∀ (tp : List String) (st : WalkState),
      (unsetLoop tp st).processed = st.processed ∧
      (unsetLoop tp st).events = st.events ∧
      (unsetLoop tp st).directs = st.directs := by
  intro tp
  induction tp with
  | nil => intro st; exact ⟨rfl, rfl, rfl⟩
  | cons key rest ih =>
    intro st
    simp only [unsetLoop, List.foldl_cons]
    exact ih _

theorem unsetLoop_cvm :
    ∀ (tp : List String) (st : WalkState) (k : String),
      alookup (unsetLoop tp st).cvm k =
        if k ∈ tp then none else alookup st.cvm k := by
  intro tp
  induction tp with
  | nil => intro st k; simp [unsetLoop]
  | cons key rest ih =>
    intro st k
    have hfold : unsetLoop (key :: rest) st =
        unsetLoop rest { st with toSync := amUnset st.toSync key,
                                 cvm := amUnset st.cvm key } := rfl
    rw [hfold, ih]
    by_cases hr : k ∈ rest
    · rw [if_pos hr, if_pos (List.mem_cons_of_mem key hr)]
    · rw [if_neg hr]
      simp only [alookup_amUnset]
      by_cases hk : key = k
      · subst hk
        rw [if_pos rfl, if_pos (List.mem_cons_self _ _)]
      · rw [if_neg hk, if_neg (fun hc => by
          rcases List.mem_cons.mp hc with hc | hc
          · exact hk hc.symm
          · exact hr hc)]

/-- A `Step` away from a state satisfying the invariant, measured from
that state's own processed set, preserves the invariant (before any
unsetting). -/
theorem stInv_after_step {st A : WalkState} {idx : Nat} {ver : String}
    (hstep : Step st.processed idx ver st A) (hinv : StInv st) : StInv A := by
  obtain ⟨hsub, hdir, ⟨new, hev, hnew⟩, hstab, hprov⟩ := hstep
  obtain ⟨i1, i2, i3, i4, i5, i6⟩ := hinv
  refine ⟨?_, ?_, ?_, ?_, ?_, ?_⟩
  · intro k hk
    obtain ⟨v, hv⟩ := Option.isSome_iff_exists.mp hk
    rcases hprov k v hv with h | ⟨_, _, hmem, _⟩
    · exact hsub k (i1 k (by rw [h]; rfl))
    · exact hmem
  · intro k hk
    rw [hdir] at hk
    exact hsub k (i2 k hk)
  · intro k hk
    rw [hdir]
    obtain ⟨v, hv⟩ := Option.isSome_iff_exists.mp hk
    rcases hprov k v hv with h | ⟨_, hnp, _, _⟩
    · exact i3 k (by rw [h]; rfl)
    · exact fun hc => hnp (i2 k hc)
  · intro e he
    rw [hev] at he
    rcases List.mem_append.mp he with he | he
    · exact hsub _ (i4 e he)
    · exact (hnew e he).2.2.2
  · intro e1 he1 e2 he2 hkeq
    rw [hev] at he1 he2
    rcases List.mem_append.mp he1 with h1 | h1 <;>
      rcases List.mem_append.mp he2 with h2 | h2
    · exact i5 e1 h1 e2 h2 hkeq
    · have hin := i4 e1 h1
      have hn := (hnew e2 h2).2.2.1
      rw [hkeq] at hin
      exact absurd hin hn
    · have hin := i4 e2 h2
      have hn := (hnew e1 h1).2.2.1
      rw [← hkeq] at hin
      exact absurd hin hn
    · obtain ⟨hi1, hv1, _, _⟩ := hnew e1 h1
      obtain ⟨hi2, hv2, _, _⟩ := hnew e2 h2
      exact ⟨hi1.trans hi2.symm, hv1.trans hv2.symm⟩
  · intro k v hv
    rcases hprov k v hv with h | ⟨hveq, _, _, hevm⟩
    · obtain ⟨e, hem, hek, hev2⟩ := i6 k v h
      exact ⟨e, by rw [hev]; exact List.mem_append_left _ hem, hek, hev2⟩
    · subst hveq
      exact ⟨(idx, k, v), hevm, rfl, rfl⟩

theorem varsBody_step (env : WalkEnv) (idx : Nat) (ver : String)
    (P : List String) (st : WalkState) (c : String)
    (hP : ∀ k ∈ P, k ∈ st.processed) (hc : c ∉ P) :
    Step P idx ver st (varsBody env idx ver st c) := by
  unfold varsBody
  cases hg : compGet env.componentsMap c with
  | none => exact step_refl P idx ver st
  | some mc =>
    simp only
    set st2 := { st with processed := okSet st.processed c } with h2
    have hstep1 : Step P idx ver st st2 :=
      ⟨fun k hk => mem_okSet_of_mem c hk, rfl, ⟨[], by simp, by simp⟩,
       fun _ _ => rfl, fun _ _ h => Or.inl h⟩
    have hP2 : ∀ k ∈ P, k ∈ st2.processed := step_processed_sub hstep1 hP
    by_cases hk : IsUpdatableKind mc.kind
    · rw [if_pos hk]
      set st3 := { st2 with toSync := amSet st2.toSync c mc,
                            cvm := amSet st2.cvm c ver,
                            events := st2.events ++ [(idx, c, ver)] } with h3
      have hstep2 : Step P idx ver st2 st3 := by
        refine ⟨fun k hkm => hkm, rfl, ⟨[(idx, c, ver)], rfl, ?_⟩, ?_, ?_⟩
        · intro e he
          rw [List.mem_singleton.mp he]
          exact ⟨rfl, rfl, hc, mem_okSet_self _ _⟩
        · intro k hkP
          have hne : c ≠ k := fun hceq => hc (hceq ▸ hkP)
          show alookup (amSet st2.cvm c ver) k = alookup st2.cvm k
          simp only [alookup_amSet, if_neg hne]
        · intro k v hv
          simp only [alookup_amSet] at hv
          by_cases hd : c = k
          · rw [if_pos hd] at hv
            subst hd
            refine Or.inr ⟨(Option.some.inj hv).symm, hc, mem_okSet_self _ _, ?_⟩
            exact List.mem_append_right _ (List.mem_singleton.mpr rfl)
          · rw [if_neg hd] at hv
            exact Or.inl hv
      have hP3 : ∀ k ∈ P, k ∈ st3.processed := step_processed_sub hstep2 hP2
      exact step_trans hstep1 (step_trans hstep2
        (depsLoop_step env idx ver P _ st3 hP3))
    · rw [if_neg hk]
      exact step_trans hstep1 (depsLoop_step env idx ver P _ st2 hP2)

theorem varsFold_step (env : WalkEnv) (idx : Nat) (ver : String)
    (P : List String) :
    ∀ (toProcess : List String) (st : WalkState),
      (∀ k ∈ P, k ∈ st.processed) → (∀ c ∈ toProcess, c ∉ P) →
      Step P idx ver st (toProcess.foldl (varsBody env idx ver) st) := by
  intro toProcess
  induction toProcess with
  | nil => intro st _ _; exact step_refl P idx ver st
  | cons c rest ih =>
    intro st hP hfresh
    have hfold : (c :: rest).foldl (varsBody env idx ver) st =
        rest.foldl (varsBody env idx ver) (varsBody env idx ver st c) := rfl
    rw [hfold]
    have h1 := varsBody_step env idx ver P st c hP
      (hfresh c (List.mem_cons_self c rest))
    exact step_trans h1 (ih _ (step_processed_sub h1 hP)
      (fun c2 hc2 => hfresh c2 (List.mem_cons_of_mem c hc2)))

theorem walkVarsItem_inv (env : WalkEnv) (idx : Nat) (ver : String)
    (vmembers : List SVariable) (st : WalkState) (hinv : StInv st) :
    StInv (walkVarsItem env idx ver vmembers st) := by
  unfold walkVarsItem
  simp only
  set components := compactStrs (sortStrs ((sortVars vmembers).foldl
    (fun acc v =>
      let vc := env.varComponents v.name v.platform
      if env.usedComponents.isEmpty then acc ++ vc
      else acc ++ vc.filter (fun c => decide (c ∈ env.usedComponents))) []))
    with hcomp
  set toProcess := components.filter
    (fun key => decide (key ∉ st.processed)) with htp
  by_cases he : toProcess.isEmpty
  · rw [if_pos he]
    exact hinv
  · rw [if_neg he]
    have hfresh : ∀ c ∈ toProcess, c ∉ st.processed := by
      intro c hcm
      have := List.of_mem_filter hcm
      simpa using this
    exact stInv_after_step
      (varsFold_step env idx ver st.processed toProcess st
        (fun _ hk => hk) hfresh) hinv

theorem walkCompsItem_inv (env : WalkEnv) (idx : Nat) (ver : String)
    (members : List SComponent) (st st2 : WalkState)
    (h : walkCompsItem env idx ver members st = Except.ok st2)
    (hinv : StInv st) : StInv st2 := by
  unfold walkCompsItem at h
  simp only at h
  set sorted := sortComps members with hs
  set toProcess := (sorted.filter
    (fun c => decide (c.name ∉ st.processed) && IsUpdatableKind c.kind)).map
      SComponent.name with htp
  by_cases he : toProcess.isEmpty
  · rw [if_pos he] at h
    simp only [Except.ok.injEq] at h
    subst h
    exact hinv
  · rw [if_neg he] at h
    cases hpl : compsProcessLoop env idx ver sorted toProcess st with
    | error e => rw [hpl] at h; exact absurd h (by simp)
    | ok A =>
      rw [hpl] at h
      simp only [Except.ok.injEq] at h
      obtain ⟨hstep, hmark⟩ := compsProcessLoop_step env idx ver sorted
        st.processed toProcess st A (fun _ hk => hk) hpl
      have hA : StInv A := stInv_after_step hstep hinv
      obtain ⟨hproc3, hev3, hdir3⟩ := unsetLoop_fields toProcess A
      obtain ⟨iA1, iA2, iA3, iA4, iA5, iA6⟩ := hA
      subst h
      refine ⟨?_, ?_, ?_, ?_, ?_, ?_⟩
      · intro k hk
        simp only [unsetLoop_cvm] at hk
        by_cases hktp : k ∈ toProcess
        · rw [if_pos hktp] at hk
          simp at hk
        · rw [if_neg hktp] at hk
          rw [hproc3]
          exact iA1 k hk
      · intro k hk
        rw [hproc3]
        simp only [hdir3] at hk
        rcases List.mem_append.mp hk with hk | hk
        · rw [hstep.2.1] at hk
          exact hstep.1 k (hinv.2.1 k hk)
        · exact hmark k hk
      · intro k hk
        simp only [unsetLoop_cvm] at hk
        by_cases hktp : k ∈ toProcess
        · rw [if_pos hktp] at hk
          simp at hk
        · rw [if_neg hktp] at hk
          simp only [hdir3]
          intro hc
          rcases List.mem_append.mp hc with hc | hc
          · exact iA3 k hk hc
          · exact hktp hc
      · intro e he
        rw [hev3] at he
        rw [hproc3]
        exact iA4 e he
      · intro e1 he1 e2 he2 hkeq
        rw [hev3] at he1 he2
        exact iA5 e1 he1 e2 he2 hkeq
      · intro k v hv
        simp only [unsetLoop_cvm] at hv
        by_cases hktp : k ∈ toProcess
        · rw [if_pos hktp] at hv
          exact absurd hv (by simp)
        · rw [if_neg hktp] at hv
          obtain ⟨e, hem, hek, hevv⟩ := iA6 k v hv
          exact ⟨e, by rw [hev3]; exact hem, hek, hevv⟩

theorem walkItems_inv (env : WalkEnv) :
    ∀ (tl : List TItem) (idx : Nat) (st st2 : WalkState),
      walkItems env tl idx st = Except.ok st2 → StInv st → StInv st2 := by
  intro tl
  induction tl with
  | nil =>
    intro idx st st2 h hinv
    simp only [walkItems, Except.ok.injEq] at h
    subst h
    exact hinv
  | cons item rest ih =>
    intro idx st st2 h hinv
    cases item with
    | comps ver commit date members =>
      simp only [walkItems] at h
      cases hci : walkCompsItem env idx ver members st with
      | error e => rw [hci] at h; exact absurd h (by simp)
      | ok stA =>
        rw [hci] at h
        exact ih _ _ _ h (walkCompsItem_inv env idx ver members st stA hci hinv)
    | vars ver commit date vmembers =>
      simp only [walkItems] at h
      exact ih _ _ _ h (walkVarsItem_inv env idx ver vmembers st hinv)

theorem stInv_init : StInv ⟨[], [], [], [], []⟩ := by
  refine ⟨?_, ?_, ?_, ?_, ?_, ?_⟩ <;> simp [alookup]

/-- C3 counterexample: on a timeline with a VariablesItem whose two
direct variable components depend on one another, the key `c2` is
assigned twice (once as a dependent, once as the unguarded direct
component) — not exactly once; and the final map's key `m` is a direct
member of the oldest ComponentsItem (its membership was skipped because
`m` was already processed, so it was never unset). -/
theorem propagation_counterexample :
    buildPropagationMap envC3 tlC3 = Except.ok stC3 ∧
    (stC3.events.filter (fun e => decide (e.2.1 = "c2"))).length = 2 ∧
    "m" ∈ stC3.cvm.map Prod.fst ∧
    "m" ∈ directMemberNames tlC3 :=
  ⟨by decide, by rfl, by decide, by decide⟩

/-- C3 (amended): in a successful timeline walk, every key of the final
`componentVersionMap` is backed by at least one recorded assignment, all
assignments to one key come from a single timeline item and carry that
item's version (a key may be assigned twice within one VariablesItem),
`processed` is a superset of the key set, and no key of the final map is
among the direct members any ComponentsItem actually processed (those
are unset at the end of the item). -/
theorem buildPropagationMap_invariants (env : WalkEnv) (tl : List TItem)
    (st : WalkState) (h : buildPropagationMap env tl = Except.ok st) :
    (∀ k, (alookup st.cvm k).isSome = true → k ∈ st.processed) ∧
    (∀ k v, alookup st.cvm k = some v →
      ∃ e ∈ st.events, e.2.1 = k ∧ e.2.2 = v) ∧
    (∀ e1 ∈ st.events, ∀ e2 ∈ st.events, e1.2.1 = e2.2.1 →
      e1.1 = e2.1 ∧ e1.2.2 = e2.2.2) ∧
    (∀ k, (alookup st.cvm k).isSome = true → k ∉ st.directs) := by
  have hinv := walkItems_inv env tl 0 ⟨[], [], [], [], []⟩ st h stInv_init
  exact ⟨hinv.1, hinv.2.2.2.2.2, hinv.2.2.2.2.1, hinv.2.2.1⟩

/-- Witness for `buildPropagationMap_invariants` on a concrete one-item
timeline. -/
theorem buildPropagationMap_invariants_witness :
    "m" ∈ stC3w.processed ∧ "m" ∉ stC3w.directs := by
  have h := buildPropagationMap_invariants envC3w tlC3w stC3w rfl
  exact ⟨h.1 "m" rfl, h.2.2.2 "m" rfl⟩

/-- After a successful construction the semantic maps are mutually
inverse away from the synthetic `platform` key, and the build maps are
mutually inverse everywhere. -/
theorem buildGraph_mirror_core {files : List TaskFile} {st : GraphState}
    (h : buildComponentsGraph files = some st) :
    (∀ a b, a ≠ "platform" →
      (a ∈ depGet st.requires b ↔ b ∈ depGet st.requiredBy a)) ∧
    (∀ a b, a ∈ depGet st.buildRequires b ↔ b ∈ depGet st.buildRequiredBy a) := by
  obtain ⟨order, hts, hst⟩ := buildComponentsGraph_some h
  subst hst
  have hm : MirrorS (files.foldl processTaskFile ⟨[], [], [], [], []⟩) :=
    mirrorS_foldl files ⟨mirror_nil, mirror_nil⟩
  set base := files.foldl processTaskFile
    (⟨[], [], [], [], []⟩ : GraphState) with hbase
  constructor
  · intro a b ha
    have e1 : ({platformStep base with topOrder := order.reverse} :
        GraphState).requires = base.requires := rfl
    have e2 : ({platformStep base with topOrder := order.reverse} :
        GraphState).requiredBy = amSet base.requiredBy "platform"
          ((base.requiredBy.map Prod.fst).filter
            (fun c => (alookup base.requires c).isNone)) := rfl
    rw [e1, e2]
    have e3 : depGet (amSet base.requiredBy "platform"
        ((base.requiredBy.map Prod.fst).filter
          (fun c => (alookup base.requires c).isNone))) a =
        depGet base.requiredBy a := by
      unfold depGet
      rw [alookup_amSet, if_neg (fun hc => ha hc.symm)]
    rw [e3]
    exact hm.1 a b
  · intro a b
    have e1 : ({platformStep base with topOrder := order.reverse} :
        GraphState).buildRequires = base.buildRequires := rfl
    have e2 : ({platformStep base with topOrder := order.reverse} :
        GraphState).buildRequiredBy = base.buildRequiredBy := rfl
    rw [e1, e2]
    exact hm.2 a b

/-- C7 (amended): after a successful construction the semantic maps
`requires`/`requiredBy` are mutually inverse for every `a ≠ platform`
(the synthetic root key is one-directional), and the build maps are
mutually inverse without restriction. -/
theorem buildGraph_maps_inverse {files : List TaskFile} {st : GraphState}
    (h : buildComponentsGraph files = some st) :
    (∀ a b, a ≠ "platform" →
      (a ∈ depGet st.requires b ↔ b ∈ depGet st.requiredBy a)) ∧
    (∀ a b, a ∈ depGet st.buildRequires b ↔ b ∈ depGet st.buildRequiredBy a) :=
  buildGraph_mirror_core h

/-- After a successful construction, a semantic dependency that appears
in the topological order precedes every component that requires it. -/
theorem buildGraph_precedes_core {files : List TaskFile} {st : GraphState}
    (h : buildComponentsGraph files = some st) :
    ∀ u v, u ∈ depGet st.requires v → u ≠ "platform" → u ∈ st.topOrder →
      precedes st.topOrder u v := by
  intro u v huv hne humem
  have hrb : v ∈ depGet st.requiredBy u :=
    ((buildGraph_mirror_core h).1 u v hne).mp huv
  obtain ⟨order, hts, hst⟩ := buildComponentsGraph_some h
  have hgood := (topSort_spec hts).2
  have hadj : st.requiredBy = (platformStep
      (files.foldl processTaskFile ⟨[], [], [], [], []⟩)).requiredBy := by
    rw [hst]
  have htop : st.topOrder = order.reverse := by
    rw [hst]
  rw [hadj] at hrb
  rw [htop] at humem ⊢
  have humem2 : u ∈ order := List.mem_reverse.mp humem
  exact precedes_reverse (hgood u humem2 v hrb)

/-- C1 (amended): after a successful construction, `platform` appears
first in the topological order, and every component that appears in the
order precedes every component that requires it: for `u ∈ requires[v]`
with `u ≠ platform` and `u` in the order, `u` precedes `v`. -/
theorem buildGraph_platform_first_order {files : List TaskFile}
    {st : GraphState} (h : buildComponentsGraph files = some st) :
    st.topOrder.head? = some "platform" ∧
    ∀ u v, u ∈ depGet st.requires v → u ≠ "platform" → u ∈ st.topOrder →
      precedes st.topOrder u v :=
  ⟨buildGraph_platform_head h, buildGraph_precedes_core h⟩

/-- Witness for `buildGraph_platform_first_order` on a concrete tree. -/
theorem buildGraph_platform_first_order_witness :
    stC1w.topOrder.head? = some "platform" ∧
    precedes stC1w.topOrder "t.a.b" "w.a.b" := by
  have h := @buildGraph_platform_first_order filesC1w stC1w (by decide)
  exact ⟨h.1, h.2 "t.a.b" "w.a.b" (by decide) (by decide) (by decide)⟩

/-- Witness for `buildGraph_maps_inverse` on a concrete tree. -/
theorem buildGraph_maps_inverse_witness :
    "a.b.c" ∈ depGet stC7.requires "x.y.z" ↔
      "x.y.z" ∈ depGet stC7.requiredBy "a.b.c" :=
  (@buildGraph_maps_inverse filesC7 stC7 (by decide)).1
    "a.b.c" "x.y.z" (by decide)

/-- C8 (amended): if `a ∈ requires[b]` and `a` appears in the sorted
order, then `a` appears before `b` (the dependency precedes the
requirer), not after it. -/
theorem buildGraph_requires_precedes {files : List TaskFile}
    {st : GraphState} (h : buildComponentsGraph files = some st) :
    ∀ u v, u ∈ depGet st.requires v → u ≠ "platform" → u ∈ st.topOrder →
      precedes st.topOrder u v :=
  buildGraph_precedes_core h

/-- Witness for `buildGraph_requires_precedes` on a concrete tree. -/
theorem buildGraph_requires_precedes_witness :
    precedes stC8.topOrder "u.a.b" "v.a.b" :=
  @buildGraph_requires_precedes filesC8 stC8 (by decide)
    "u.a.b" "v.a.b" (by decide) (by decide) (by decide)

end Plasmactl
